import Mathlib

/-!
Shallow embedding of the conversation-graph core of the agent-transcripts
repository, and verification of the frozen claims about it.

Embedded sources:
- src/utils/tree.ts      (buildTree, findLatestLeaf, tracePath, getFirstLine,
                          walkTranscriptTree)                     -> namespace Tree
- src/adapters/claude-code.ts  (findMessageAncestor, splitConversations,
                          extract helpers, resolveParent,
                          transformConversation, parse)           -> namespace Claude
- src/adapters/pi-coding-agent.ts (splitConversations, resolveParent,
                          transformConversation, parse)           -> namespace Pi
- src/render.ts          (renderMessage, renderTranscript)        -> namespace Render

Modelling conventions (uniform over the whole file):
- JavaScript Map objects (insertion ordered, unique keys) are association lists
  with unique keys, kept in insertion order; JavaScript Set objects are
  duplicate-free lists in insertion order.
- ISO-8601 timestamp strings are modelled as their epoch-millisecond value
  (an Int); the conversion performed by JavaScript as
  new Date(s).getTime() is then the identity.  Valid timestamps only: the NaN
  value produced for unparseable strings is outside the model.
- while loops that walk parent pointers are modelled with an explicit fuel
  parameter; a result of none marks fuel exhaustion.  For every loop that the
  source guards with a visited set we prove that the chosen fuel is always
  sufficient, so none is unreachable; for the one unguarded loop
  (tracePath) a none result models genuine divergence of the source loop,
  justified by the fuel-monotonicity lemma tracePathAux_mono below.
- generator functions are modelled as functions returning the finite list of
  yielded events.
- JSON.stringify on a decoded record (used only to fill the rawJson field) is
  modelled by an explicit deterministic encoder of the record structure.
-/

/-! ## Association maps with JavaScript Map semantics -/

/-- Association list standing for a JavaScript Map with String keys:
unique keys, insertion order preserved. -/
abbrev AssocMap (β : Type) := List (String × β)

/-- Map.get: value of the first (unique) entry with the given key. -/
def getA {β : Type} : AssocMap β → String → Option β
  | [], _ => none
  | (k2, v) :: rest, k => if k2 = k then some v else getA rest k

/-- Map.has. -/
def hasA {β : Type} (m : AssocMap β) (k : String) : Bool :=
  (getA m k).isSome

/-- Map.set: overwrite in place if the key is present, else append. -/
def setA {β : Type} : AssocMap β → String → β → AssocMap β
  | [], k, v => [(k, v)]
  | (k2, v2) :: rest, k, v =>
    if k2 = k then (k2, v) :: rest else (k2, v2) :: setA rest k v

/-- Set.add for a JavaScript Set of strings (insertion ordered, no duplicates). -/
def addS (s : List String) (x : String) : List String :=
  if x ∈ s then s else s ++ [x]

/-- Keys of a map, in insertion order. -/
def keysA {β : Type} (m : AssocMap β) : List String :=
  m.map Prod.fst

/-- Truthiness of a JavaScript string-or-undefined value: present and nonempty. -/
def optTruthy : Option String → Bool
  | none => false
  | some s => s ≠ ""

/-- Model of the JavaScript String.prototype.trim used throughout the
sources: drop whitespace from both ends of the string.  Structurally
recursive over the character list, so concrete runs reduce. -/
def jsTrim (s : String) : String :=
  ⟨((s.data.dropWhile Char.isWhitespace).reverse.dropWhile
      Char.isWhitespace).reverse⟩

theorem getA_setA_self {β : Type} (m : AssocMap β) (k : String) (v : β) :
    getA (setA m k v) k = some v := by
  induction m with
  | nil => simp [setA, getA]
  | cons kv rest ih =>
    obtain ⟨k2, v2⟩ := kv
    by_cases h : k2 = k
    · simp [setA, h, getA]
    · simp [setA, h, getA, ih]

theorem getA_setA_ne {β : Type} (m : AssocMap β) (k k2 : String) (v : β)
    (h : k ≠ k2) : getA (setA m k v) k2 = getA m k2 := by
  induction m with
  | nil => simp [setA, getA, h]
  | cons kv rest ih =>
    obtain ⟨k3, v3⟩ := kv
    by_cases h3 : k3 = k
    · subst h3
      simp [setA, getA, h, Ne.symm h]
    · by_cases h4 : k3 = k2 <;> simp [setA, getA, h3, h4, ih, Ne.symm h]

theorem getA_mem {β : Type} {m : AssocMap β} {k : String} {v : β}
    (h : getA m k = some v) : (k, v) ∈ m := by
  induction m with
  | nil => simp [getA] at h
  | cons kv rest ih =>
    obtain ⟨k2, v2⟩ := kv
    by_cases h2 : k2 = k
    · subst h2
      simp [getA] at h
      simp [h]
    · simp [getA, h2] at h
      exact List.mem_cons_of_mem _ (ih h)

theorem hasA_iff_mem_keysA {β : Type} (m : AssocMap β) (k : String) :
    hasA m k = true ↔ k ∈ keysA m := by
  induction m with
  | nil => simp [hasA, getA, keysA]
  | cons kv rest ih =>
    obtain ⟨k2, v2⟩ := kv
    by_cases h2 : k2 = k
    · subst h2
      simp [hasA, getA, keysA]
    · simp only [hasA, getA, h2, if_false, keysA, List.map_cons, List.mem_cons]
      rw [← keysA, ← hasA]
      constructor
      · intro h
        exact Or.inr (ih.mp h)
      · intro h
        rcases h with h | h
        · exact absurd h.symm h2
        · exact ih.mpr h

/-! ## Intermediate transcript data model (src/types.ts) -/

/-- ToolInput models Record<string, unknown> read only through
String(input.field) coercions: field names mapped to stringified values. -/
abbrev ToolInput := List (String × String)

/-- ToolCall (src/types.ts). -/
structure ToolCall where
  id : Option String
  name : String
  summary : String
  input : Option ToolInput
  result : Option String
  error : Option String
deriving DecidableEq, Repr

/-- Warning (src/types.ts). -/
structure Warning where
  type : String
  detail : String
  sourceRef : Option String := none
deriving DecidableEq, Repr

/-- Payload of a Message, discriminated like the type field of the
TypeScript union (user, assistant, system, tool_calls, error). -/
inductive MessageBody where
  | user (content : String)
  | assistant (content : String) (thinking : Option String)
  | system (content : String)
  | toolCalls (calls : List ToolCall)
  | error (content : String)
deriving DecidableEq, Repr

/-- Message (src/types.ts): common fields plus the discriminated payload. -/
structure Message where
  body : MessageBody
  sourceRef : String
  timestamp : Int
  parentMessageRef : Option String
  rawJson : String
deriving DecidableEq, Repr

/-- Transcript.source (src/types.ts). -/
structure SourceInfo where
  file : String
  adapter : String
deriving DecidableEq, Repr

/-- Transcript.metadata (src/types.ts). -/
structure Metadata where
  warnings : List Warning
  messageCount : Nat
  startTime : Int
  endTime : Int
  cwd : Option String
deriving DecidableEq, Repr

/-- Transcript (src/types.ts). -/
structure Transcript where
  source : SourceInfo
  metadata : Metadata
  messages : List Message
deriving DecidableEq, Repr

namespace Tree

/-! ## src/utils/tree.ts -/

/-- MessageTree (src/utils/tree.ts). -/
structure MessageTree where
  bySourceRef : AssocMap (List Message)
  children : AssocMap (List String)
  parents : AssocMap String
  roots : List String
deriving Repr

/-- buildTree (src/utils/tree.ts): group messages by sourceRef, build the
children multimap (a Set per key) and the parents map over references whose
parent is present, then collect parentless keys as roots. -/
def buildTree (messages : List Message) : MessageTree :=
  let bySourceRef : AssocMap (List Message) :=
    messages.foldl
      (fun m msg => setA m msg.sourceRef (((getA m msg.sourceRef).getD []) ++ [msg]))
      []
  let cp : AssocMap (List String) × AssocMap String :=
    messages.foldl
      (fun cp msg =>
        if optTruthy msg.parentMessageRef &&
            hasA bySourceRef (msg.parentMessageRef.getD "") then
          let p := msg.parentMessageRef.getD ""
          (setA cp.1 p (addS ((getA cp.1 p).getD []) msg.sourceRef),
           setA cp.2 msg.sourceRef p)
        else cp)
      ([], [])
  let roots : List String :=
    (keysA bySourceRef).filter (fun sourceRef => ¬ hasA cp.2 sourceRef)
  { bySourceRef := bySourceRef, children := cp.1, parents := cp.2, roots := roots }

/-- One iteration of the findLatestLeaf scan (src/utils/tree.ts): skip keys
with a nonempty child set, then keep the key whose first message has a
strictly larger timestamp than the best so far. -/
def fllStep (bySourceRef : AssocMap (List Message))
    (children : AssocMap (List String)) (st : Option String × Int)
    (sourceRef : String) : Option String × Int :=
  match getA children sourceRef with
  | some (_ :: _) => st
  | _ =>
    match getA bySourceRef sourceRef with
    | some (m :: _) =>
      if m.timestamp > st.2 then (some sourceRef, m.timestamp) else st
    | _ => st

/-- findLatestLeaf (src/utils/tree.ts): scan keys in insertion order, keep the
leaf (no child set or empty child set) whose first message has the strictly
largest timestamp so far, starting from latestTime = 0. -/
def findLatestLeaf (bySourceRef : AssocMap (List Message))
    (children : AssocMap (List String)) : Option String :=
  ((keysA bySourceRef).foldl (fllStep bySourceRef children) (none, 0)).1

/-- Loop body of tracePath (src/utils/tree.ts) with explicit fuel.  Each unit
of fuel pays for one loop iteration (one unshift plus one parent lookup); none
means the fuel ran out, which happens only when the source loop diverges on a
cyclic parents map. -/
def tracePathAux (parents : AssocMap String) :
    Nat → Option String → List String → Option (List String)
  | _, none, path => some path
  | fuel, some current, path =>
    if current = "" then some path
    else
      match fuel with
      | 0 => none
      | fuel + 1 => tracePathAux parents fuel (getA parents current) (current :: path)

/-- tracePath (src/utils/tree.ts): walk parent pointers from the target,
prepending each visited reference.  Fuel one larger than the number of parent
entries is enough for every terminating run (tracePath_of_decreasing and
tracePathAux_mono below). -/
def tracePath (target : String) (parents : AssocMap String) : Option (List String) :=
  tracePathAux parents (parents.length + 1) (some target) []

/-- getFirstLine (src/utils/tree.ts). -/
def getFirstLine (msg : Message) : String :=
  let text :=
    match msg.body with
    | .user content => content
    | .assistant content _ => content
    | .system content => content
    | .error content => content
    | .toolCalls calls => String.intercalate ", " (calls.map ToolCall.name)
  let firstLine := jsTrim ((text.splitOn "\n").headD "")
  if firstLine.length > 60 then firstLine.take 60 ++ "..." else firstLine

/-- BranchInfo (src/utils/tree.ts). -/
structure BranchInfo where
  sourceRef : String
  firstLine : String
deriving DecidableEq, Repr

/-- TreeEvent (src/utils/tree.ts). -/
inductive TreeEvent where
  | messages (messages : List Message)
  | branchNote (branches : List BranchInfo)
  | headNotFound (head : String)
  | empty
deriving DecidableEq, Repr

/-- WalkOptions (src/utils/tree.ts). -/
structure WalkOptions where
  head : Option String := none
deriving DecidableEq, Repr

/-- One iteration of the branch-collection loop of walkTranscriptTree: a
child off the path contributes a BranchInfo when it has at least one
message. -/
def branchInfoFor (bySourceRef : AssocMap (List Message))
    (pathSet : List String) (childRef : String) : Option BranchInfo :=
  if childRef ∈ pathSet then none
  else
    match getA bySourceRef childRef with
    | some (m :: _) => some ⟨childRef, getFirstLine m⟩
    | _ => none

/-- Branch-note events emitted at one path node (the body of the
branch-detection block of walkTranscriptTree): at a node with more than one
child, list the children off the path that have at least one message, each
with the first line of its first message; emit nothing when the collected
list is empty. -/
def branchEventsAt (bySourceRef : AssocMap (List Message))
    (children : AssocMap (List String)) (pathSet : List String)
    (sourceRef : String) : List TreeEvent :=
  match getA children sourceRef with
  | some childSet =>
    if childSet.length > 1 then
      let branches : List BranchInfo :=
        childSet.filterMap (branchInfoFor bySourceRef pathSet)
      if branches.isEmpty then [] else [.branchNote branches]
    else []
  | none => []

/-- Path loop of walkTranscriptTree: one messages event per path node that has
messages, followed (in default mode) by its branch-note events. -/
def walkPathEvents (bySourceRef : AssocMap (List Message))
    (children : AssocMap (List String)) (pathSet : List String)
    (useBranches : Bool) : List String → List TreeEvent
  | [] => []
  | sourceRef :: rest =>
    match getA bySourceRef sourceRef with
    | none => walkPathEvents bySourceRef children pathSet useBranches rest
    | some msgs =>
      .messages msgs ::
        ((if useBranches then branchEventsAt bySourceRef children pathSet sourceRef
          else []) ++
          walkPathEvents bySourceRef children pathSet useBranches rest)

/-- walkTranscriptTree (src/utils/tree.ts), as the list of yielded events.
The result is none exactly when the unguarded tracePath loop of the source
diverges (cyclic parents map reachable from the chosen target). -/
def walkTranscriptTree (transcript : Transcript) (options : WalkOptions) :
    Option (List TreeEvent) :=
  if transcript.messages.isEmpty then some [.empty]
  else
    let head := options.head
    let t := buildTree transcript.messages
    if optTruthy head then
      let h := head.getD ""
      if ¬ hasA t.bySourceRef h then some [.headNotFound h]
      else
        match tracePath h t.parents with
        | none => none
        | some path => some (walkPathEvents t.bySourceRef t.children path false path)
    else
      let target := findLatestLeaf t.bySourceRef t.children
      if optTruthy target then
        match tracePath (target.getD "") t.parents with
        | none => none
        | some path => some (walkPathEvents t.bySourceRef t.children path true path)
      else
        some [.messages transcript.messages]

end Tree

namespace Summary

/-! ## src/utils/summary.ts (and the truncate helper of src/utils/text.ts) -/

/-- truncate (src/utils/text.ts).  That file is not part of the provided
sources; the function is modelled after the identical local helper
truncateText of the sync module: cut to maxLen characters and append an
ellipsis when the text is longer than maxLen. -/
def truncate (text : String) (maxLen : Nat) : String :=
  if text.length ≤ maxLen then text else text.take maxLen ++ "..."

/-- Read one field of a tool input, as String(input.field or "") does. -/
def getField (input : ToolInput) (k : String) : String :=
  (getA input k).getD ""

/-- First truthy (nonempty) field among two, as input.a or input.b does. -/
def fieldOr (input : ToolInput) (k1 k2 : String) : String :=
  let v := getField input k1
  if v ≠ "" then v else getField input k2

/-- The per-tool extractor table of src/utils/summary.ts, as one match. -/
def runExtractor (toolName : String) (input : ToolInput) : Option String :=
  if toolName = "Read" ∨ toolName = "Write" ∨ toolName = "Edit" then
    some (fieldOr input "file_path" "path")
  else if toolName = "Bash" then
    some (if getField input "description" ≠ "" then getField input "description"
      else if getField input "command" ≠ "" then truncate (getField input "command") 60
      else "")
  else if toolName = "Grep" then
    some (truncate (getField input "pattern" ++
      (if getField input "path" ≠ "" then " in " ++ getField input "path" else "")) 80)
  else if toolName = "Glob" then some (getField input "pattern")
  else if toolName = "WebFetch" then some (getField input "url")
  else if toolName = "WebSearch" then some (getField input "query")
  else if toolName = "Task" then
    some (truncate (fieldOr input "description" "prompt") 60)
  else if toolName = "TodoWrite" then some "update todos"
  else if toolName = "AskUserQuestion" then some "ask user"
  else if toolName = "NotebookEdit" then some (getField input "notebook_path")
  else none

/-- extractToolSummary (src/utils/summary.ts): run the extractor when the
table has one and its result is truthy, else fall back to the empty string. -/
def extractToolSummary (toolName : String) (input : ToolInput) : String :=
  match runExtractor toolName input with
  | some summary => if summary ≠ "" then summary else ""
  | none => ""

end Summary

namespace Split

/-! ## Conversation collection loop, shared by both adapters

Both splitConversations implementations contain the same literal BFS loop
(queue, global visited set, per-root conversation list); it is embedded once,
polymorphic in the record type. -/

/-- One BFS run from a queue: dequeue, skip falsy or visited ids, otherwise
mark visited, append the record found under the id, and enqueue its children.
Fuel pays one unit per loop iteration; none means fuel ran out (shown
unreachable for the fuel used below). -/
def bfsAux {α : Type} (byId : AssocMap α) (children : AssocMap (List String)) :
    Nat → List String → List String → List α → Option (List String × List α)
  | _, [], visited, conversation => some (visited, conversation)
  | 0, _ :: _, _, _ => none
  | fuel + 1, u :: queue, visited, conversation =>
    if u = "" ∨ u ∈ visited then bfsAux byId children fuel queue visited conversation
    else
      bfsAux byId children fuel (queue ++ ((getA children u).getD []))
        (visited ++ [u])
        (conversation ++
          (match getA byId u with | some rec => [rec] | none => []))

/-- The outer loop over roots: skip visited roots, BFS from each fresh root,
keep nonempty conversations. -/
def rootsLoopAux {α : Type} (byId : AssocMap α) (children : AssocMap (List String))
    (bfsFuel : Nat) :
    List String → List String → List (List α) → Option (List String × List (List α))
  | [], visited, conversations => some (visited, conversations)
  | root :: rest, visited, conversations =>
    if root ∈ visited then rootsLoopAux byId children bfsFuel rest visited conversations
    else
      match bfsAux byId children bfsFuel [root] visited [] with
      | none => none
      | some (visited2, conversation) =>
        rootsLoopAux byId children bfsFuel rest visited2
          (if conversation.isEmpty then conversations else conversations ++ [conversation])

/-- Fuel used for each BFS run: one more than the total length of all child
lists, an upper bound on the number of loop iterations (bfsAux_total below). -/
def bfsFuelFor (children : AssocMap (List String)) : Nat :=
  1 + (children.map (fun kv => kv.2.length)).sum

/-- Sort key of the conversation comparator: timestamp of the first record,
or 0 when it is absent. -/
def convTime {α : Type} (timeOf : α → Int) : List α → Int
  | [] => 0
  | r :: _ => timeOf r

/-- Insert into an ascending-sorted list, before the first element with a key
that is not smaller; elements processed later in sortAsc come earlier in the
original list, so this is the stable ascending order of Array.prototype.sort
with the comparator (a, b) => key a - key b. -/
def insertAsc {α : Type} (key : α → Int) (x : α) : List α → List α
  | [] => [x]
  | y :: ys => if key y < key x then y :: insertAsc key x ys else x :: y :: ys

/-- Stable ascending sort by an Int key (Array.prototype.sort is stable). -/
def sortAsc {α : Type} (key : α → Int) : List α → List α
  | [] => []
  | x :: xs => insertAsc key x (sortAsc key xs)

/-- Loop body of resolveParent with explicit fuel, one unit per iteration;
none marks fuel exhaustion (unreachable for the fuel chosen by the callers,
see skipChainAux_total).  Both adapters contain this while loop verbatim:
claude-code.ts resolveParent and the resolveParent closure of
pi-coding-agent.ts transformConversation. -/
def skipChainAux (skippedParents : AssocMap (Option String)) :
    Nat → Option String → List String → Option (Option String)
  | _, none, _ => some none
  | fuel, some current, visited =>
    if current = "" then some (some current)
    else if ¬ hasA skippedParents current then some (some current)
    else if current ∈ visited then some none
    else
      match fuel with
      | 0 => none
      | fuel + 1 =>
        skipChainAux skippedParents fuel ((getA skippedParents current).bind id)
          (current :: visited)

end Split

namespace Claude

/-! ## src/adapters/claude-code.ts -/

/-- ContentBlock (claude-code.ts): a bag of optional fields plus a type tag.
The content field (unknown in the source, read only through
stringifyToolResult) is modelled by its stringified form. -/
structure CBlock where
  type : String
  text : Option String := none
  thinking : Option String := none
  id : Option String := none
  name : Option String := none
  input : Option ToolInput := none
  tool_use_id : Option String := none
  content : Option String := none
deriving DecidableEq, Repr

/-- The content of a Claude message: a string or a block list. -/
inductive CContent where
  | str (s : String)
  | blocks (bs : List CBlock)
deriving DecidableEq, Repr

/-- The message object of a ClaudeRecord. -/
structure CMessageObj where
  role : String
  content : CContent
deriving DecidableEq, Repr

/-- ClaudeRecord (claude-code.ts).  Timestamps are epoch milliseconds. -/
structure ClaudeRecord where
  type : String
  uuid : Option String := none
  parentUuid : Option String := none
  timestamp : Option Int := none
  message : Option CMessageObj := none
  content : Option String := none
  cwd : Option String := none
deriving DecidableEq, Repr

/-- Deterministic stand-in for JSON.stringify on a ToolInput value. -/
def encodeToolInput (i : ToolInput) : String :=
  String.intercalate ";" (i.map (fun kv => kv.1 ++ "=" ++ kv.2))

/-- Deterministic stand-in encoder, Option String field. -/
def encodeOS : Option String → String
  | none => "_"
  | some s => "s:" ++ s

/-- Deterministic stand-in encoder, one content block. -/
def encodeBlock (b : CBlock) : String :=
  "[" ++ b.type ++ "," ++ encodeOS b.text ++ "," ++ encodeOS b.thinking ++ "," ++
    encodeOS b.id ++ "," ++ encodeOS b.name ++ "," ++
    encodeOS (b.input.map encodeToolInput) ++ "," ++ encodeOS b.tool_use_id ++ "," ++
    encodeOS b.content ++ "]"

/-- Deterministic stand-in encoder, message content. -/
def encodeContent : CContent → String
  | .str s => "str:" ++ s
  | .blocks bs => "blocks:" ++ String.intercalate "," (bs.map encodeBlock)

/-- Deterministic stand-in for JSON.stringify(rec), filling rawJson. -/
def encodeRecord (r : ClaudeRecord) : String :=
  "rec(" ++ r.type ++ "," ++ encodeOS r.uuid ++ "," ++ encodeOS r.parentUuid ++ "," ++
    encodeOS (r.timestamp.map toString) ++ "," ++
    encodeOS (r.message.map (fun m => m.role ++ "/" ++ encodeContent m.content)) ++ "," ++
    encodeOS r.content ++ "," ++ encodeOS r.cwd ++ ")"

/-- Loop body of findMessageAncestor (claude-code.ts) with explicit fuel,
one unit per iteration of the while loop; none marks fuel exhaustion
(unreachable for the fuel chosen in findMessageAncestor, see
findMessageAncestorAux_total). -/
def findMessageAncestorAux (allByUuid : AssocMap ClaudeRecord)
    (messageUuids : List String) :
    Nat → Option String → List String → Option (Option String)
  | _, none, _ => some none
  | fuel, some current, visited =>
    if current = "" then some none
    else if current ∈ visited then some none
    else if current ∈ messageUuids then some (some current)
    else
      match fuel with
      | 0 => none
      | fuel + 1 =>
        findMessageAncestorAux allByUuid messageUuids fuel
          ((getA allByUuid current).bind ClaudeRecord.parentUuid) (current :: visited)

/-- findMessageAncestor (claude-code.ts): walk the raw parent chain, through
records that are not messages, to the nearest message uuid; a revisited id
(cycle) or an exhausted chain yields none. -/
def findMessageAncestor (parentUuid : Option String)
    (allByUuid : AssocMap ClaudeRecord) (messageUuids : List String) :
    Option String :=
  match findMessageAncestorAux allByUuid messageUuids (allByUuid.length + 1)
      parentUuid [] with
  | some r => r
  | none => none

/-- extractText (claude-code.ts). -/
def extractText : CContent → String
  | .str s => s
  | .blocks bs =>
    String.intercalate "\n" (bs.filterMap (fun b =>
      if b.type = "text" ∧ optTruthy b.text then some (b.text.getD "") else none))

/-- extractThinking (claude-code.ts). -/
def extractThinking : CContent → Option String
  | .str _ => none
  | .blocks bs =>
    let thinking := String.intercalate "\n\n" (bs.filterMap (fun b =>
      if b.type = "thinking" ∧ optTruthy b.thinking then some (b.thinking.getD "")
      else none))
    if thinking = "" then none else some thinking

/-- stringifyToolResult (claude-code.ts): on the model, where the unknown
content value is kept in stringified form, this is the identity. -/
def stringifyToolResult (content : String) : String := content

/-- extractToolResults (claude-code.ts): collect tool_result blocks into a
tool_use_id keyed map. -/
def extractToolResults : CContent → AssocMap String
  | .str _ => []
  | .blocks bs =>
    bs.foldl (fun results b =>
      if b.type = "tool_result" ∧ optTruthy b.tool_use_id ∧ b.content.isSome then
        setA results (b.tool_use_id.getD "") (stringifyToolResult (b.content.getD ""))
      else results) []

/-- extractToolCalls (claude-code.ts): tool_use blocks with truthy name and
id, matched with results from the toolResults map. -/
def extractToolCalls (content : CContent) (toolResults : AssocMap String) :
    List ToolCall :=
  match content with
  | .str _ => []
  | .blocks bs =>
    bs.filterMap (fun b =>
      if b.type = "tool_use" ∧ optTruthy b.name ∧ optTruthy b.id then
        some { id := none, name := b.name.getD "",
               summary := Summary.extractToolSummary (b.name.getD "") (b.input.getD []),
               input := b.input, result := getA toolResults (b.id.getD ""),
               error := none }
      else none)

/-- isToolResultOnly (claude-code.ts). -/
def isToolResultOnly : CContent → Bool
  | .str _ => false
  | .blocks bs =>
    let hasToolResult := bs.any (fun b => b.type = "tool_result")
    let hasText := bs.any (fun b => b.type = "text" ∧ jsTrim (b.text.getD "") ≠ "")
    hasToolResult ∧ ¬ hasText

/-- resolveParent (claude-code.ts): follow the chain of skipped (elided)
messages to the first reference that was not skipped; a revisited id (cycle)
yields none. -/
def resolveParent (parentUuid : Option String)
    (skippedParents : AssocMap (Option String)) : Option String :=
  if ¬ optTruthy parentUuid then none
  else
    match Split.skipChainAux skippedParents skippedParents.length parentUuid [] with
    | some r => r
    | none => none

/-- Accumulator of the graph-building loop of splitConversations. -/
structure GraphAcc where
  byUuid : AssocMap ClaudeRecord
  children : AssocMap (List String)
  resolvedParents : AssocMap (Option String)
  roots : List String
deriving Repr

/-- One iteration of the graph-building loop of splitConversations
(claude-code.ts): resolve the ancestor of one message record and file the
record under it, or under roots. -/
def graphStep (allByUuid : AssocMap ClaudeRecord) (messageUuids : List String)
    (acc : GraphAcc) (rec : ClaudeRecord) : GraphAcc :=
  if ¬ optTruthy rec.uuid then acc
  else
    let uuid := rec.uuid.getD ""
    let byUuid := setA acc.byUuid uuid rec
    let ancestor := findMessageAncestor rec.parentUuid allByUuid messageUuids
    let resolvedParents := setA acc.resolvedParents uuid ancestor
    if optTruthy ancestor then
      { byUuid := byUuid,
        children := setA acc.children (ancestor.getD "")
          (((getA acc.children (ancestor.getD "")).getD []) ++ [uuid]),
        resolvedParents := resolvedParents, roots := acc.roots }
    else
      { byUuid := byUuid, children := acc.children,
        resolvedParents := resolvedParents, roots := acc.roots ++ [uuid] }

/-- SplitResult (claude-code.ts). -/
structure SplitResult where
  conversations : List (List ClaudeRecord)
  resolvedParents : AssocMap (Option String)
deriving Repr

/-- The message-record filter of splitConversations. -/
def messageRecords (records : List ClaudeRecord) : List ClaudeRecord :=
  records.filter (fun r =>
    optTruthy r.uuid ∧ (r.type = "user" ∨ r.type = "assistant" ∨ r.type = "system"))

/-- The record timestamp read by the conversation comparator. -/
def recTime (r : ClaudeRecord) : Int :=
  r.timestamp.getD 0

/-- The uuid lookup over ALL records (splitConversations, claude-code.ts). -/
def allByUuidOf (records : List ClaudeRecord) : AssocMap ClaudeRecord :=
  records.foldl
    (fun m r => if optTruthy r.uuid then setA m (r.uuid.getD "") r else m) []

/-- The message uuid set (splitConversations, claude-code.ts). -/
def messageUuidsOf (records : List ClaudeRecord) : List String :=
  (messageRecords records).foldl
    (fun s r => if optTruthy r.uuid then addS s (r.uuid.getD "") else s) []

/-- The graph-building loop of splitConversations (claude-code.ts). -/
def graphOf (records : List ClaudeRecord) : GraphAcc :=
  (messageRecords records).foldl
    (graphStep (allByUuidOf records) (messageUuidsOf records)) ⟨[], [], [], []⟩

/-- splitConversations (claude-code.ts): build the resolved-ancestor graph
over message records, collect conversations by BFS from the roots, and sort
them by the timestamp of their first record. -/
def splitConversations (records : List ClaudeRecord) : SplitResult :=
  if (messageRecords records).isEmpty then
    { conversations := [], resolvedParents := [] }
  else
    let g : GraphAcc := graphOf records
    match Split.rootsLoopAux g.byUuid g.children (Split.bfsFuelFor g.children)
        g.roots [] [] with
    | none => { conversations := [], resolvedParents := g.resolvedParents }
    | some (_, conversations) =>
      { conversations := Split.sortAsc (Split.convTime recTime) conversations,
        resolvedParents := g.resolvedParents }

/-- The elision test of the first pass of transformConversation
(claude-code.ts): true when the record carries no user-visible content. -/
def willSkipRecord (allToolResults : AssocMap String) (rec : ClaudeRecord) : Bool :=
  if rec.type = "user" then
    match rec.message with
    | some msg =>
      if isToolResultOnly msg.content then true
      else jsTrim (extractText msg.content) = ""
    | none => false
  else if rec.type = "assistant" then
    match rec.message with
    | some msg =>
      jsTrim (extractText msg.content) = "" ∧ (extractThinking msg.content).isNone ∧
        (extractToolCalls msg.content allToolResults).isEmpty
    | none => false
  else if rec.type = "system" then
    jsTrim (rec.content.getD "") = ""
  else false

/-- The allToolResults map of transformConversation: tool results collected
from every user record before classification. -/
def collectToolResults (records : List ClaudeRecord) : AssocMap String :=
  records.foldl (fun m rec =>
    if rec.type = "user" then
      match rec.message with
      | some msg => (extractToolResults msg.content).foldl
          (fun m2 kv => setA m2 kv.1 kv.2) m
      | none => m
    else m) []

/-- The skippedParents map of transformConversation: every skipped record
mapped to its resolved parent. -/
def collectSkippedParents (records : List ClaudeRecord)
    (resolvedParents : AssocMap (Option String))
    (allToolResults : AssocMap String) : AssocMap (Option String) :=
  records.foldl (fun m rec =>
    if ¬ optTruthy rec.uuid then m
    else if willSkipRecord allToolResults rec then
      setA m (rec.uuid.getD "") ((getA resolvedParents (rec.uuid.getD "")).bind id)
    else m) []

/-- The first cwd found among records with a uuid (first pass of
transformConversation). -/
def firstCwd (records : List ClaudeRecord) : Option String :=
  records.foldl (fun c rec =>
    if ¬ optTruthy rec.uuid then c
    else match c with
    | some _ => c
    | none => if optTruthy rec.cwd then rec.cwd else none) none

/-- One iteration of the second pass of transformConversation: append the
messages of one record.  The now argument models the
new Date().toISOString() fallback taken when a record has no timestamp. -/
def buildMessageStep (resolvedParents skippedParents : AssocMap (Option String))
    (allToolResults : AssocMap String) (now : Int) (msgs : List Message)
    (rec : ClaudeRecord) : List Message :=
  let sourceRef := rec.uuid.getD ""
    let timestamp := rec.timestamp.getD now
    let parentMessageRef :=
      if optTruthy rec.uuid then
        resolveParent ((getA resolvedParents (rec.uuid.getD "")).bind id) skippedParents
      else none
    let rawJson := encodeRecord rec
    if rec.type = "user" then
      match rec.message with
      | some msg =>
        if isToolResultOnly msg.content then msgs
        else
          let text := extractText msg.content
          if jsTrim text ≠ "" then
            msgs ++ [{ body := .user text, sourceRef := sourceRef,
                       timestamp := timestamp, parentMessageRef := parentMessageRef,
                       rawJson := rawJson }]
          else msgs
      | none => msgs
    else if rec.type = "assistant" then
      match rec.message with
      | some msg =>
        let text := extractText msg.content
        let thinking := extractThinking msg.content
        let toolCalls := extractToolCalls msg.content allToolResults
        let msgs2 :=
          if jsTrim text ≠ "" ∨ thinking.isSome then
            msgs ++ [{ body := .assistant text thinking, sourceRef := sourceRef,
                       timestamp := timestamp, parentMessageRef := parentMessageRef,
                       rawJson := rawJson }]
          else msgs
        if toolCalls.isEmpty then msgs2
        else msgs2 ++ [{ body := .toolCalls toolCalls, sourceRef := sourceRef,
                         timestamp := timestamp, parentMessageRef := parentMessageRef,
                         rawJson := rawJson }]
      | none => msgs
    else if rec.type = "system" then
      let text := rec.content.getD ""
      if jsTrim text ≠ "" then
        msgs ++ [{ body := .system text, sourceRef := sourceRef,
                   timestamp := timestamp, parentMessageRef := parentMessageRef,
                   rawJson := rawJson }]
      else msgs
    else msgs

/-- Second pass of transformConversation: build the Message list with
corrected parent references. -/
def buildMessages (records : List ClaudeRecord)
    (resolvedParents skippedParents : AssocMap (Option String))
    (allToolResults : AssocMap String) (now : Int) : List Message :=
  records.foldl
    (buildMessageStep resolvedParents skippedParents allToolResults now) []

/-- transformConversation (claude-code.ts). -/
def transformConversation (records : List ClaudeRecord) (sourcePath : String)
    (warnings : List Warning) (resolvedParents : AssocMap (Option String))
    (now : Int) : Transcript :=
  let allToolResults := collectToolResults records
  let cwd := firstCwd records
  let skippedParents := collectSkippedParents records resolvedParents allToolResults
  let messages := buildMessages records resolvedParents skippedParents allToolResults now
  let firstTimestamp := match messages with | [] => now | m :: _ => m.timestamp
  let lastTimestamp := ((messages.getLast?).map Message.timestamp).getD firstTimestamp
  { source := { file := sourcePath, adapter := "claude-code" },
    metadata := { warnings := warnings, messageCount := messages.length,
                  startTime := firstTimestamp, endTime := lastTimestamp, cwd := cwd },
    messages := messages }

/-- parse of the claude-code adapter (claude-code.ts, lines 575-618).  The
JSON-decoding stage parseJsonl is modelled as already done: parse receives
the decoded records and the accumulated parse warnings; now models the
new Date() fallbacks. -/
def parse (records : List ClaudeRecord) (warnings : List Warning)
    (sourcePath : String) (now : Int) : List Transcript :=
  let res := splitConversations records
  if res.conversations.isEmpty then
    [{ source := { file := sourcePath, adapter := "claude-code" },
       metadata := { warnings := warnings, messageCount := 0,
                     startTime := now, endTime := now, cwd := none },
       messages := [] }]
  else if res.conversations.length = 1 then
    [transformConversation (res.conversations.headD []) sourcePath warnings
      res.resolvedParents now]
  else
    res.conversations.mapIdx (fun i conv =>
      transformConversation conv sourcePath (if i = 0 then warnings else [])
        res.resolvedParents now)

end Claude

namespace Render

/-! ## src/render.ts -/

/-- formatToolCall (render.ts). -/
def formatToolCall (call : ToolCall) : String :=
  if call.summary ≠ "" then call.name ++ " `" ++ call.summary ++ "`" else call.name

/-- formatToolCalls (render.ts). -/
def formatToolCalls (calls : List ToolCall) : String :=
  match calls with
  | [call] => "**Tool**: " ++ formatToolCall call
  | _ =>
    "**Tools**:\n" ++
      String.intercalate "\n" (calls.map (fun c => "- " ++ formatToolCall c))

/-- renderMessage (render.ts). -/
def renderMessage (msg : Message) : String :=
  match msg.body with
  | .user content => "## User\n\n" ++ content
  | .assistant content thinking =>
    let parts := ["## Assistant"]
    let parts := parts ++
      (if optTruthy thinking then
        ["\n<details>\n<summary>Thinking...</summary>\n\n" ++ thinking.getD "" ++
          "\n</details>"]
       else [])
    let parts := parts ++ (if jsTrim content ≠ "" then [content] else [])
    String.intercalate "\n\n" parts
  | .system content => "## System\n\n```\n" ++ content ++ "\n```"
  | .toolCalls calls => formatToolCalls calls
  | .error content => "## Error\n\n```\n" ++ content ++ "\n```"

/-- RenderTranscriptOptions (render.ts). -/
structure RenderTranscriptOptions where
  head : Option String := none
  sourcePath : Option String := none
deriving DecidableEq, Repr

/-- Header lines of renderTranscript (render.ts, up to the first divider):
front matter, title, source, adapter, warnings. -/
def headerLines (transcript : Transcript) (sourcePath : Option String) :
    List String :=
  (match sourcePath with
   | some sp => if sp ≠ "" then ["---", "source: " ++ sp, "---", ""] else []
   | none => []) ++
  ["# Transcript", "", "**Source**: `" ++ transcript.source.file ++ "`",
   "**Adapter**: " ++ transcript.source.adapter] ++
  (if transcript.metadata.warnings.isEmpty then []
   else ["", "**Warnings**:"] ++
     transcript.metadata.warnings.map (fun w => "- " ++ w.type ++ ": " ++ w.detail)) ++
  ["", "---"]

/-- Fallback body of renderTranscript: every message rendered in input order,
each preceded by a blank line, empty renderings dropped. -/
def fallbackLines (messages : List Message) : List String :=
  messages.foldl (fun lines msg =>
    let rendered := renderMessage msg
    if rendered ≠ "" then lines ++ ["", rendered] else lines) []

/-- Lines produced for the traced path: for each path node with messages,
every message rendered in order, then (in default mode) the other-branches
block when the node has more than one child and an off-path child exists. -/
def pathLines (bySourceRef : AssocMap (List Message))
    (children : AssocMap (List String)) (pathSet : List String)
    (useBranches : Bool) : List String → List String
  | [] => []
  | sourceRef :: rest =>
    (match getA bySourceRef sourceRef with
     | none => []
     | some msgs =>
       (msgs.foldl (fun lines msg =>
         let rendered := renderMessage msg
         if rendered ≠ "" then lines ++ ["", rendered] else lines) []) ++
       (if useBranches then
         match getA children sourceRef with
         | some childSet =>
           if childSet.length > 1 then
             let otherBranches := childSet.filter (fun c => c ∉ pathSet)
             if otherBranches.isEmpty then []
             else
               ["", "> **Other branches**:"] ++
               otherBranches.foldl (fun lines branchRef =>
                 match getA bySourceRef branchRef with
                 | some (m :: _) =>
                   lines ++ ["> - `" ++ branchRef ++ "` \"" ++
                     Tree.getFirstLine m ++ "\""]
                 | _ => lines) []
           else []
         | none => []
        else [])) ++
    pathLines bySourceRef children pathSet useBranches rest

/-- renderTranscript (render.ts), producing the final markdown string.  The
result is none exactly when the unguarded tracePath loop of the source
diverges. -/
def renderTranscript (transcript : Transcript)
    (options : RenderTranscriptOptions) : Option String :=
  let head := options.head
  let lines := headerLines transcript options.sourcePath
  if transcript.messages.isEmpty then some (String.intercalate "\n" lines)
  else
    let t := Tree.buildTree transcript.messages
    if optTruthy head then
      let h := head.getD ""
      if ¬ hasA t.bySourceRef h then
        some (String.intercalate "\n"
          (lines ++ ["", "**Error**: Message ID `" ++ h ++ "` not found"]))
      else
        match Tree.tracePath h t.parents with
        | none => none
        | some path =>
          some (String.intercalate "\n"
            (lines ++ pathLines t.bySourceRef t.children path false path))
    else
      let target := Tree.findLatestLeaf t.bySourceRef t.children
      if optTruthy target then
        match Tree.tracePath (target.getD "") t.parents with
        | none => none
        | some path =>
          some (String.intercalate "\n"
            (lines ++ pathLines t.bySourceRef t.children path true path))
      else
        some (String.intercalate "\n" (lines ++ fallbackLines transcript.messages))

end Render

namespace Pi

/-! ## src/adapters/pi-coding-agent.ts -/

/-- SessionHeader (pi-coding-agent.ts). -/
structure SessionHeader where
  id : String
  timestamp : Int
  cwd : String
  version : Option Int := none
  parentSession : Option String := none
deriving DecidableEq, Repr

/-- ContentBlock (pi-coding-agent.ts): closed union of block shapes. -/
inductive PiBlock where
  | text (text : String)
  | image (data : String) (mimeType : String)
  | thinking (thinking : String)
  | toolCall (id : String) (name : String) (arguments : ToolInput)
deriving DecidableEq, Repr

/-- A string-or-block-list content value (user and custom messages). -/
inductive PiContent where
  | str (s : String)
  | blocks (bs : List PiBlock)
deriving DecidableEq, Repr

/-- AgentMessage (pi-coding-agent.ts): closed union discriminated by role. -/
inductive PiMessage where
  | user (content : PiContent) (timestamp : Int)
  | assistant (content : List PiBlock) (api provider model stopReason : String)
      (errorMessage : Option String) (timestamp : Int)
  | toolResult (toolCallId toolName : String) (content : List PiBlock)
      (isError : Bool) (timestamp : Int)
  | bashExecution (command output : String) (exitCode : Option Int)
      (cancelled truncated : Bool) (timestamp : Int)
  | custom (customType : String) (content : PiContent) (display : Bool)
      (timestamp : Int)
  | branchSummary (summary fromId : String) (timestamp : Int)
  | compactionSummary (summary : String) (tokensBefore : Int) (timestamp : Int)
deriving DecidableEq, Repr

/-- SessionEntry (pi-coding-agent.ts): the entry union kept by parseJsonl,
discriminated by type; every variant carries id, parentId, timestamp. -/
inductive SessionEntry where
  | message (id : String) (parentId : Option String) (timestamp : Int)
      (msg : PiMessage)
  | compaction (id : String) (parentId : Option String) (timestamp : Int)
      (summary : String) (firstKeptEntryId : String) (tokensBefore : Int)
  | branchSummaryEntry (id : String) (parentId : Option String) (timestamp : Int)
      (fromId : String) (summary : String)
  | modelChange (id : String) (parentId : Option String) (timestamp : Int)
      (provider : String) (modelId : String)
  | thinkingLevelChange (id : String) (parentId : Option String) (timestamp : Int)
      (thinkingLevel : String)
  | sessionInfo (id : String) (parentId : Option String) (timestamp : Int)
      (name : Option String)
deriving DecidableEq, Repr

/-- The id field shared by every SessionEntry variant. -/
def entryId : SessionEntry → String
  | .message i _ _ _ => i
  | .compaction i _ _ _ _ _ => i
  | .branchSummaryEntry i _ _ _ _ => i
  | .modelChange i _ _ _ _ => i
  | .thinkingLevelChange i _ _ _ => i
  | .sessionInfo i _ _ _ => i

/-- The parentId field shared by every SessionEntry variant. -/
def entryParentId : SessionEntry → Option String
  | .message _ p _ _ => p
  | .compaction _ p _ _ _ _ => p
  | .branchSummaryEntry _ p _ _ _ => p
  | .modelChange _ p _ _ _ => p
  | .thinkingLevelChange _ p _ _ => p
  | .sessionInfo _ p _ _ => p

/-- The timestamp field shared by every SessionEntry variant. -/
def entryTimestamp : SessionEntry → Int
  | .message _ _ t _ => t
  | .compaction _ _ t _ _ _ => t
  | .branchSummaryEntry _ _ t _ _ => t
  | .modelChange _ _ t _ _ => t
  | .thinkingLevelChange _ _ t _ => t
  | .sessionInfo _ _ t _ => t

/-- extractText (pi-coding-agent.ts). -/
def extractText : PiContent → String
  | .str s => s
  | .blocks bs =>
    String.intercalate "\n" (bs.filterMap (fun b =>
      match b with
      | .text t => some t
      | _ => none))

/-- extractThinking (pi-coding-agent.ts). -/
def extractThinking (content : List PiBlock) : Option String :=
  let parts := content.filterMap (fun b =>
    match b with
    | .thinking th => some th
    | _ => none)
  if parts.isEmpty then none else some (String.intercalate "\n\n" parts)

/-- One toolCall block (the PiToolCall shape of pi-coding-agent.ts). -/
structure PiToolCallB where
  id : String
  name : String
  arguments : ToolInput
deriving DecidableEq, Repr

/-- extractToolCalls (pi-coding-agent.ts): the toolCall blocks. -/
def extractPiToolCalls (content : List PiBlock) : List PiToolCallB :=
  content.filterMap (fun b =>
    match b with
    | .toolCall i n a => some ⟨i, n, a⟩
    | _ => none)

/-- SplitResult (pi-coding-agent.ts). -/
structure SplitResult where
  conversations : List (List SessionEntry)
  resolvedParents : AssocMap (Option String)
deriving Repr

/-- Accumulator of the graph loop of splitConversations
(pi-coding-agent.ts). -/
structure GraphAcc where
  children : AssocMap (List String)
  resolvedParents : AssocMap (Option String)
  roots : List String
deriving Repr

/-- The record timestamp read by the conversation comparator
(pi entries always carry a timestamp). -/
def recTime (e : SessionEntry) : Int :=
  entryTimestamp e

/-- The id lookup over all entries (splitConversations, pi-coding-agent.ts). -/
def byIdOf (entries : List SessionEntry) : AssocMap SessionEntry :=
  entries.foldl (fun m e => setA m (entryId e) e) []

/-- One iteration of the graph loop of splitConversations
(pi-coding-agent.ts): file the entry under its parent when the parent id is
present in the file, else under roots. -/
def graphStep (byId : AssocMap SessionEntry) (acc : GraphAcc)
    (e : SessionEntry) : GraphAcc :=
  let parentId := entryParentId e
  if optTruthy parentId ∧ hasA byId (parentId.getD "") then
    { children := setA acc.children (parentId.getD "")
        (((getA acc.children (parentId.getD "")).getD []) ++ [entryId e]),
      resolvedParents := setA acc.resolvedParents (entryId e) parentId,
      roots := acc.roots }
  else
    { children := acc.children,
      resolvedParents := setA acc.resolvedParents (entryId e) none,
      roots := acc.roots ++ [entryId e] }

/-- The graph loop of splitConversations (pi-coding-agent.ts). -/
def graphOf (entries : List SessionEntry) : GraphAcc :=
  entries.foldl (graphStep (byIdOf entries)) ⟨[], [], []⟩

/-- splitConversations (pi-coding-agent.ts): link entries by id/parentId when
the parent is present in the file, collect conversations by BFS from the
roots, and sort them by the timestamp of their first entry. -/
def splitConversations (entries : List SessionEntry) : SplitResult :=
  if entries.isEmpty then { conversations := [], resolvedParents := [] }
  else
    let g : GraphAcc := graphOf entries
    match Split.rootsLoopAux (byIdOf entries) g.children
        (Split.bfsFuelFor g.children) g.roots [] [] with
    | none => { conversations := [], resolvedParents := g.resolvedParents }
    | some (_, conversations) =>
      { conversations := Split.sortAsc (Split.convTime recTime) conversations,
        resolvedParents := g.resolvedParents }

/-- One collected tool result (pi-coding-agent.ts transformConversation). -/
structure PiToolResult where
  result : String
  isError : Bool
  toolName : String
deriving DecidableEq, Repr

/-- First pass of pi transformConversation: collect tool results from
toolResult messages into a toolCallId keyed map. -/
def collectToolResults (entries : List SessionEntry) : AssocMap PiToolResult :=
  entries.foldl (fun m e =>
    match e with
    | .message _ _ _ (.toolResult toolCallId toolName content isError _) =>
      setA m toolCallId ⟨extractText (.blocks content), isError, toolName⟩
    | _ => m) []

/-- The elision test of pi transformConversation: entry types and message
roles that never render, and user or assistant messages with no content. -/
def willSkipEntry (e : SessionEntry) : Bool :=
  match e with
  | .message _ _ _ msg =>
    match msg with
    | .toolResult _ _ _ _ _ => true
    | .bashExecution _ _ _ _ _ _ => true
    | .user content _ => jsTrim (extractText content) = ""
    | .assistant content _ _ _ _ _ _ =>
      jsTrim (extractText (.blocks content)) = "" ∧
        (extractThinking content).isNone ∧ (extractPiToolCalls content).isEmpty
    | .compactionSummary _ _ _ => true
    | .branchSummary _ _ _ => true
    | .custom _ _ _ _ => true
  | .modelChange _ _ _ _ _ => true
  | .thinkingLevelChange _ _ _ _ => true
  | .sessionInfo _ _ _ _ => true
  | .compaction _ _ _ _ _ _ => false
  | .branchSummaryEntry _ _ _ _ _ => false

/-- The skippedParents map of pi transformConversation. -/
def collectSkippedParents (entries : List SessionEntry)
    (resolvedParents : AssocMap (Option String)) : AssocMap (Option String) :=
  entries.foldl (fun m e =>
    if willSkipEntry e then
      setA m (entryId e) ((getA resolvedParents (entryId e)).bind id)
    else m) []

/-- resolveParent (pi-coding-agent.ts, the closure inside
transformConversation): start from the resolved parent of the entry and
follow the chain of skipped entries. -/
def resolveParent (resolvedParents skippedParents : AssocMap (Option String))
    (entryId : String) : Option String :=
  match Split.skipChainAux skippedParents skippedParents.length
      ((getA resolvedParents entryId).bind id) [] with
  | some r => r
  | none => none

/-- Deterministic stand-in for JSON.stringify on a pi content block. -/
def encodePiBlock : PiBlock → String
  | .text t => "t:" ++ t
  | .image d m => "img:" ++ d ++ "/" ++ m
  | .thinking th => "th:" ++ th
  | .toolCall i n a => "tc:" ++ i ++ "/" ++ n ++ "/" ++ Claude.encodeToolInput a

/-- Deterministic stand-in for JSON.stringify on a pi content value. -/
def encodePiContent : PiContent → String
  | .str s => "str:" ++ s
  | .blocks bs => "blocks:" ++ String.intercalate "," (bs.map encodePiBlock)

/-- Deterministic stand-in for JSON.stringify on a pi message. -/
def encodePiMessage : PiMessage → String
  | .user c t => "user(" ++ encodePiContent c ++ "," ++ toString t ++ ")"
  | .assistant c api provider model stop err t =>
    "assistant(" ++ encodePiContent (.blocks c) ++ "," ++ api ++ "," ++ provider ++
      "," ++ model ++ "," ++ stop ++ "," ++ Claude.encodeOS err ++ "," ++
      toString t ++ ")"
  | .toolResult i n c e t =>
    "toolResult(" ++ i ++ "," ++ n ++ "," ++ encodePiContent (.blocks c) ++ "," ++
      toString e ++ "," ++ toString t ++ ")"
  | .bashExecution cmd out code cancelled truncated t =>
    "bash(" ++ cmd ++ "," ++ out ++ "," ++ Claude.encodeOS (code.map toString) ++
      "," ++ toString cancelled ++ "," ++ toString truncated ++ "," ++
      toString t ++ ")"
  | .custom ty c d t =>
    "custom(" ++ ty ++ "," ++ encodePiContent c ++ "," ++ toString d ++ "," ++
      toString t ++ ")"
  | .branchSummary s f t =>
    "branchSummary(" ++ s ++ "," ++ f ++ "," ++ toString t ++ ")"
  | .compactionSummary s n t =>
    "compactionSummary(" ++ s ++ "," ++ toString n ++ "," ++ toString t ++ ")"

/-- Deterministic stand-in for JSON.stringify(entry), filling rawJson. -/
def encodeEntry : SessionEntry → String
  | .message i p t m =>
    "message(" ++ i ++ "," ++ Claude.encodeOS p ++ "," ++ toString t ++ "," ++
      encodePiMessage m ++ ")"
  | .compaction i p t s f n =>
    "compaction(" ++ i ++ "," ++ Claude.encodeOS p ++ "," ++ toString t ++ "," ++
      s ++ "," ++ f ++ "," ++ toString n ++ ")"
  | .branchSummaryEntry i p t f s =>
    "branch_summary(" ++ i ++ "," ++ Claude.encodeOS p ++ "," ++ toString t ++
      "," ++ f ++ "," ++ s ++ ")"
  | .modelChange i p t pr m =>
    "model_change(" ++ i ++ "," ++ Claude.encodeOS p ++ "," ++ toString t ++
      "," ++ pr ++ "," ++ m ++ ")"
  | .thinkingLevelChange i p t l =>
    "thinking_level_change(" ++ i ++ "," ++ Claude.encodeOS p ++ "," ++
      toString t ++ "," ++ l ++ ")"
  | .sessionInfo i p t n =>
    "session_info(" ++ i ++ "," ++ Claude.encodeOS p ++ "," ++ toString t ++
      "," ++ Claude.encodeOS n ++ ")"

/-- Second pass of pi transformConversation: build the Message list, skipping
entries recorded in skippedParents. -/
def buildMessages (entries : List SessionEntry)
    (resolvedParents skippedParents : AssocMap (Option String))
    (toolResults : AssocMap PiToolResult) : List Message :=
  entries.foldl (fun msgs e =>
    if hasA skippedParents (entryId e) then msgs
    else
      let sourceRef := entryId e
      let timestamp := entryTimestamp e
      let parentMessageRef := resolveParent resolvedParents skippedParents (entryId e)
      let rawJson := encodeEntry e
      match e with
      | .compaction _ _ _ summary _ _ =>
        msgs ++ [{ body := .system ("[Compaction] " ++ summary),
                   sourceRef := sourceRef, timestamp := timestamp,
                   parentMessageRef := parentMessageRef, rawJson := rawJson }]
      | .branchSummaryEntry _ _ _ _ summary =>
        msgs ++ [{ body := .system ("[Branch summary] " ++ summary),
                   sourceRef := sourceRef, timestamp := timestamp,
                   parentMessageRef := parentMessageRef, rawJson := rawJson }]
      | .message _ _ _ msg =>
        match msg with
        | .user content _ =>
          let text := extractText content
          if jsTrim text ≠ "" then
            msgs ++ [{ body := .user text, sourceRef := sourceRef,
                       timestamp := timestamp,
                       parentMessageRef := parentMessageRef, rawJson := rawJson }]
          else msgs
        | .assistant blocks _ _ _ _ _ _ =>
          let text := extractText (.blocks blocks)
          let thinking := extractThinking blocks
          let piToolCalls := extractPiToolCalls blocks
          let msgs2 :=
            if jsTrim text ≠ "" ∨ thinking.isSome then
              msgs ++ [{ body := .assistant text thinking, sourceRef := sourceRef,
                         timestamp := timestamp,
                         parentMessageRef := parentMessageRef, rawJson := rawJson }]
            else msgs
          if piToolCalls.isEmpty then msgs2
          else
            let calls : List ToolCall := piToolCalls.map (fun tc =>
              let result := getA toolResults tc.id
              { id := some tc.id, name := tc.name,
                summary := Summary.extractToolSummary tc.name tc.arguments,
                input := some tc.arguments,
                result := result.map PiToolResult.result,
                error := match result with
                  | some r => if r.isError then some r.result else none
                  | none => none })
            msgs2 ++ [{ body := .toolCalls calls, sourceRef := sourceRef,
                        timestamp := timestamp,
                        parentMessageRef := parentMessageRef, rawJson := rawJson }]
        | _ => msgs
      | _ => msgs) []

/-- transformConversation (pi-coding-agent.ts). -/
def transformConversation (entries : List SessionEntry) (sourcePath : String)
    (warnings : List Warning) (resolvedParents : AssocMap (Option String))
    (cwd : Option String) (now : Int) : Transcript :=
  let toolResults := collectToolResults entries
  let skippedParents := collectSkippedParents entries resolvedParents
  let messages := buildMessages entries resolvedParents skippedParents toolResults
  let minTime := messages.foldl (fun acc m =>
    match acc with
    | none => some m.timestamp
    | some v => some (if m.timestamp < v then m.timestamp else v)) none
  let maxTime := messages.foldl (fun acc m =>
    match acc with
    | none => some m.timestamp
    | some v => some (if m.timestamp > v then m.timestamp else v)) none
  let startTime := minTime.getD now
  let endTime := maxTime.getD startTime
  { source := { file := sourcePath, adapter := "pi-coding-agent" },
    metadata := { warnings := warnings, messageCount := messages.length,
                  startTime := startTime, endTime := endTime, cwd := cwd },
    messages := messages }

/-- parse of the pi-coding-agent adapter (pi-coding-agent.ts, lines 591-635).
The JSON-decoding stage parseJsonl is modelled as already done: parse
receives the decoded header, the kept entries and the accumulated parse
warnings; now models the new Date() fallbacks. -/
def parse (header : Option SessionHeader) (entries : List SessionEntry)
    (warnings : List Warning) (sourcePath : String) (now : Int) :
    List Transcript :=
  let cwd := header.map SessionHeader.cwd
  let res := splitConversations entries
  if res.conversations.isEmpty then
    [{ source := { file := sourcePath, adapter := "pi-coding-agent" },
       metadata := { warnings := warnings, messageCount := 0,
                     startTime := now, endTime := now, cwd := cwd },
       messages := [] }]
  else if res.conversations.length = 1 then
    [transformConversation (res.conversations.headD []) sourcePath warnings
      res.resolvedParents cwd now]
  else
    res.conversations.mapIdx (fun i conv =>
      transformConversation conv sourcePath (if i = 0 then warnings else [])
        res.resolvedParents cwd now)

end Pi

/-! ## General lemmas: filter lengths -/

theorem filter_length_le_of_imp {α : Type} (l : List α) (p q : α → Bool)
    (h : ∀ a, p a = true → q a = true) :
    (l.filter p).length ≤ (l.filter q).length := by
  induction l with
  | nil => simp
  | cons x xs ih =>
    by_cases hp : p x = true
    · simp [List.filter_cons, hp, h x hp]
      omega
    · have hp2 : p x = false := by simpa using hp
      by_cases hq : q x = true
      · simp [List.filter_cons, hp2, hq]
        omega
      · have hq2 : q x = false := by simpa using hq
        simp [List.filter_cons, hp2, hq2, ih]

theorem filter_length_lt_of_mem {α : Type} (l : List α) (p q : α → Bool)
    (a : α) (hmem : a ∈ l) (hq : q a = true) (hp : p a = false)
    (h : ∀ x, p x = true → q x = true) :
    (l.filter p).length < (l.filter q).length := by
  induction l with
  | nil => simp at hmem
  | cons x xs ih =>
    rcases List.mem_cons.mp hmem with hx | hx
    · subst hx
      simp [List.filter_cons, hp, hq]
      have := filter_length_le_of_imp xs p q h
      omega
    · by_cases hpx : p x = true
      · simp [List.filter_cons, hpx, h x hpx]
        exact ih hx
      · have hp2 : p x = false := by simpa using hpx
        by_cases hqx : q x = true
        · simp [List.filter_cons, hp2, hqx]
          have := ih hx
          omega
        · have hq2 : q x = false := by simpa using hqx
          simp [List.filter_cons, hp2, hq2]
          exact ih hx

namespace Tree

/-! ## Lemmas about tracePath -/

/-- Fuel monotonicity: a run of the tracePath loop that halts within the
given fuel returns the same result with any larger fuel. -/
theorem tracePathAux_mono (parents : AssocMap String) :
    ∀ (fuel fuel2 : Nat) (current : Option String) (path r : List String),
    fuel ≤ fuel2 →
    tracePathAux parents fuel current path = some r →
    tracePathAux parents fuel2 current path = some r := by
  intro fuel
  induction fuel with
  | zero =>
    intro fuel2 current path r _ h
    match current with
    | none => simpa [tracePathAux] using h
    | some c =>
      by_cases hc : c = ""
      · subst hc
        simp [tracePathAux] at h ⊢
        cases fuel2 <;> simpa [tracePathAux] using h
      · simp [tracePathAux, hc] at h
  | succ f ih =>
    intro fuel2 current path r hle h
    match current with
    | none => simpa [tracePathAux] using h
    | some c =>
      by_cases hc : c = ""
      · subst hc
        cases fuel2 <;> simpa [tracePathAux] using h
      · match fuel2, hle with
        | f2 + 1, hle =>
          simp [tracePathAux, hc] at h ⊢
          exact ih f2 _ _ r (Nat.le_of_succ_le_succ hle) h

/-- The accumulator of the tracePath loop is only ever appended behind the
visited prefix. -/
theorem tracePathAux_acc (parents : AssocMap String) :
    ∀ (fuel : Nat) (current : Option String) (path : List String),
    tracePathAux parents fuel current path =
      Option.map (fun l => l ++ path) (tracePathAux parents fuel current []) := by
  intro fuel
  induction fuel with
  | zero =>
    intro current path
    match current with
    | none => simp [tracePathAux]
    | some c =>
      by_cases hc : c = "" <;> simp [tracePathAux, hc]
  | succ f ih =>
    intro current path
    match current with
    | none => simp [tracePathAux]
    | some c =>
      by_cases hc : c = ""
      · simp [tracePathAux, hc]
      · simp only [tracePathAux, hc, if_false]
        rw [ih (getA parents c) (c :: path), ih (getA parents c) [c]]
        cases tracePathAux parents f (getA parents c) [] with
        | none => simp
        | some l => simp

/-- A halting tracePath run started at a truthy target ends at the target. -/
theorem tracePathAux_last (parents : AssocMap String) (fuel : Nat) (c : String)
    (r : List String) (hc : c ≠ "")
    (h : tracePathAux parents fuel (some c) [] = some r) :
    ∃ pre, r = pre ++ [c] := by
  match fuel with
  | 0 => simp [tracePathAux, hc] at h
  | f + 1 =>
    simp only [tracePathAux, hc, if_false] at h
    rw [tracePathAux_acc parents f (getA parents c) [c]] at h
    cases htail : tracePathAux parents f (getA parents c) [] with
    | none => rw [htail] at h; simp at h
    | some l =>
      rw [htail] at h
      simp at h
      exact ⟨l, h.symm⟩

/-- A parents map is acyclic when some natural measure strictly decreases
along every parent edge. -/
def DecreasingParents (parents : AssocMap String) (f : String → Nat) : Prop :=
  ∀ k v, getA parents k = some v → f v < f k

/-- On an acyclic parents map, the tracePath loop halts within one iteration
per parent entry plus one: at most N steps for N nodes. -/
theorem tracePathAux_total_of_decreasing (parents : AssocMap String)
    (f : String → Nat) (hdec : DecreasingParents parents f) :
    ∀ (fuel : Nat) (c : String) (path : List String),
    (parents.filter (fun kv => f kv.1 ≤ f c)).length < fuel →
    (tracePathAux parents fuel (some c) path).isSome := by
  intro fuel
  induction fuel with
  | zero => intro c path h; omega
  | succ fl ih =>
    intro c path _h
    by_cases hc : c = ""
    · simp [tracePathAux, hc]
    · simp only [tracePathAux, hc, if_false]
      cases hnext : getA parents c with
      | none =>
        match fl with
        | 0 => simp [tracePathAux]
        | fl + 1 => simp [tracePathAux]
      | some v =>
        apply ih
        have hvc : f v < f c := hdec c v hnext
        have hlt := filter_length_lt_of_mem parents
          (fun kv => f kv.1 ≤ f v) (fun kv => f kv.1 ≤ f c) (c, v)
          (getA_mem hnext) (by simp) (by simp; omega)
          (by intro x hx; simp at hx ⊢; omega)
        omega

/-- tracePath halts (with the default fuel) on every acyclic parents map. -/
theorem tracePath_total_of_decreasing (parents : AssocMap String)
    (f : String → Nat) (hdec : DecreasingParents parents f) (target : String) :
    (tracePath target parents).isSome := by
  unfold tracePath
  apply tracePathAux_total_of_decreasing parents f hdec
  have := List.length_filter_le (fun kv => f kv.1 ≤ f target) parents
  omega

/-! ## Lemmas about findLatestLeaf -/

/-- A key is a leaf when its child set is absent or empty (the test of the
findLatestLeaf scan). -/
def isLeaf (children : AssocMap (List String)) (ref : String) : Bool :=
  match getA children ref with
  | some (_ :: _) => false
  | _ => true

/-- Timestamp read by the findLatestLeaf scan for one key: that of the first
message stored under it, when present. -/
def firstTime (bySourceRef : AssocMap (List Message)) (ref : String) :
    Option Int :=
  match getA bySourceRef ref with
  | some (m :: _) => some m.timestamp
  | _ => none

theorem fllStep_skip (bySourceRef : AssocMap (List Message))
    (children : AssocMap (List String)) (st : Option String × Int)
    (ref : String)
    (h : isLeaf children ref = true → ∀ t, firstTime bySourceRef ref = some t →
      t ≤ st.2) :
    fllStep bySourceRef children st ref = st := by
  unfold fllStep
  unfold isLeaf firstTime at h
  cases hch : getA children ref with
  | none =>
    simp only [hch] at h ⊢
    cases hby : getA bySourceRef ref with
    | none => simp
    | some msgs =>
      cases msgs with
      | nil => simp
      | cons m ms =>
        have := h (by simp) m.timestamp (by simp [hby])
        simp [hby]
        omega
  | some cs =>
    cases cs with
    | nil =>
      simp only [hch] at h ⊢
      cases hby : getA bySourceRef ref with
      | none => simp
      | some msgs =>
        cases msgs with
        | nil => simp
        | cons m ms =>
          have := h (by simp) m.timestamp (by simp [hby])
          simp [hby]
          omega
    | cons c cs2 => simp [hch]

/-- The scan never changes a state that already dominates every remaining
leaf time. -/
theorem fllFold_const (bySourceRef : AssocMap (List Message))
    (children : AssocMap (List String)) :
    ∀ (ks : List String) (st : Option String × Int),
    (∀ ref ∈ ks, isLeaf children ref = true →
      ∀ t, firstTime bySourceRef ref = some t → t ≤ st.2) →
    ks.foldl (fllStep bySourceRef children) st = st := by
  intro ks
  induction ks with
  | nil => intro st _; simp
  | cons k ks ih =>
    intro st h
    have hstep : fllStep bySourceRef children st k = st :=
      fllStep_skip _ _ _ _ (h k (by simp))
    simp only [List.foldl_cons, hstep]
    exact ih st (fun ref hr => h ref (List.mem_cons_of_mem _ hr))

/-- The best time of the scan state stays below a bound that dominates the
initial state and every leaf time seen. -/
theorem fllFold_bound (bySourceRef : AssocMap (List Message))
    (children : AssocMap (List String)) (T : Int) :
    ∀ (ks : List String) (st : Option String × Int),
    st.2 < T →
    (∀ ref ∈ ks, isLeaf children ref = true →
      ∀ t, firstTime bySourceRef ref = some t → t < T) →
    (ks.foldl (fllStep bySourceRef children) st).2 < T := by
  intro ks
  induction ks with
  | nil => intro st h _; simpa
  | cons k ks ih
  =>
    intro st hst h
    simp only [List.foldl_cons]
    apply ih _ _ (fun ref hr => h ref (List.mem_cons_of_mem _ hr))
    unfold fllStep
    cases hch : getA children k with
    | none =>
      cases hby : getA bySourceRef k with
      | none => simpa [hby]
      | some msgs =>
        cases msgs with
        | nil => simpa [hby]
        | cons m ms =>
          have hm := h k (by simp) (by simp [isLeaf, hch]) m.timestamp
            (by simp [firstTime, hby])
          simp [hby]
          split <;> simpa
    | some cs =>
      cases cs with
      | nil =>
        cases hby : getA bySourceRef k with
        | none => simpa [hby]
        | some msgs =>
          cases msgs with
          | nil => simpa [hby]
          | cons m ms =>
            have hm := h k (by simp) (by simp [isLeaf, hch]) m.timestamp
              (by simp [firstTime, hby])
            simp [hby]
            split <;> simpa
      | cons c cs2 => simpa [hch]

/-- One scan step at a leaf whose time beats the running best updates the
state to that leaf. -/
theorem fllStep_select (bySourceRef : AssocMap (List Message))
    (children : AssocMap (List String)) (st : Option String × Int) (L : String)
    (T : Int) (hleaf : isLeaf children L = true)
    (htime : firstTime bySourceRef L = some T) (hst : st.2 < T) :
    fllStep bySourceRef children st L = (some L, T) := by
  unfold fllStep
  unfold isLeaf at hleaf
  unfold firstTime at htime
  cases hch : getA children L with
  | none =>
    cases hby : getA bySourceRef L with
    | none => rw [hby] at htime; simp at htime
    | some msgs =>
      cases msgs with
      | nil => rw [hby] at htime; simp at htime
      | cons m ms =>
        rw [hby] at htime
        simp at htime
        simp [hby, htime, hst]
  | some cs =>
    cases cs with
    | nil =>
      cases hby : getA bySourceRef L with
      | none => rw [hby] at htime; simp at htime
      | some msgs =>
        cases msgs with
        | nil => rw [hby] at htime; simp at htime
        | cons m ms =>
          rw [hby] at htime
          simp at htime
          simp [hch, hby, htime, hst]
    | cons c cs2 => rw [hch] at hleaf; simp at hleaf

/-- Full characterization used for the default-mode selection claim:
findLatestLeaf returns the first-encountered leaf whose (positive) time is
strictly above every earlier leaf time and not below any later leaf time. -/
theorem findLatestLeaf_select (bySourceRef : AssocMap (List Message))
    (children : AssocMap (List String)) (L : String) (T : Int)
    (ks1 ks2 : List String)
    (hkeys : keysA bySourceRef = ks1 ++ L :: ks2)
    (hleaf : isLeaf children L = true)
    (htime : firstTime bySourceRef L = some T)
    (hpos : 0 < T)
    (hbefore : ∀ ref ∈ ks1, isLeaf children ref = true →
      ∀ t, firstTime bySourceRef ref = some t → t < T)
    (hafter : ∀ ref ∈ ks2, isLeaf children ref = true →
      ∀ t, firstTime bySourceRef ref = some t → t ≤ T) :
    findLatestLeaf bySourceRef children = some L := by
  unfold findLatestLeaf
  rw [hkeys, List.foldl_append, List.foldl_cons]
  have hst1 : (ks1.foldl (fllStep bySourceRef children) (none, 0)).2 < T :=
    fllFold_bound bySourceRef children T ks1 (none, 0) (by simpa) hbefore
  rw [fllStep_select bySourceRef children _ L T hleaf htime hst1]
  rw [fllFold_const bySourceRef children ks2 (some L, T) hafter]

/-- When every leaf time is non-positive (in particular when there is no leaf
at all) the scan selects nothing. -/
theorem findLatestLeaf_none (bySourceRef : AssocMap (List Message))
    (children : AssocMap (List String))
    (h : ∀ ref ∈ keysA bySourceRef, isLeaf children ref = true →
      ∀ t, firstTime bySourceRef ref = some t → t ≤ 0) :
    findLatestLeaf bySourceRef children = none := by
  unfold findLatestLeaf
  rw [fllFold_const bySourceRef children (keysA bySourceRef) (none, 0) h]

/-! ## Unfolding lemmas for walkTranscriptTree -/

theorem walkTranscriptTree_head_not_found (t : Transcript) (h : String)
    (hne : t.messages.isEmpty = false) (hh : h ≠ "")
    (habs : hasA (buildTree t.messages).bySourceRef h = false) :
    walkTranscriptTree t { head := some h } = some [.headNotFound h] := by
  unfold walkTranscriptTree
  simp [hne, optTruthy, hh, habs]

theorem walkTranscriptTree_head_found (t : Transcript) (h : String)
    (path : List String)
    (hne : t.messages.isEmpty = false) (hh : h ≠ "")
    (hpres : hasA (buildTree t.messages).bySourceRef h = true)
    (hpath : tracePath h (buildTree t.messages).parents = some path) :
    walkTranscriptTree t { head := some h } =
      some (walkPathEvents (buildTree t.messages).bySourceRef
        (buildTree t.messages).children path false path) := by
  unfold walkTranscriptTree
  simp [hne, optTruthy, hh, hpres, hpath]

theorem walkTranscriptTree_default_fallback (t : Transcript)
    (hne : t.messages.isEmpty = false)
    (hnoleaf : findLatestLeaf (buildTree t.messages).bySourceRef
      (buildTree t.messages).children = none) :
    walkTranscriptTree t {} = some [.messages t.messages] := by
  unfold walkTranscriptTree
  simp [hne, optTruthy, hnoleaf]

theorem walkTranscriptTree_default_target (t : Transcript) (tgt : String)
    (path : List String)
    (hne : t.messages.isEmpty = false)
    (htgt : findLatestLeaf (buildTree t.messages).bySourceRef
      (buildTree t.messages).children = some tgt)
    (htne : tgt ≠ "")
    (hpath : tracePath tgt (buildTree t.messages).parents = some path) :
    walkTranscriptTree t {} =
      some (walkPathEvents (buildTree t.messages).bySourceRef
        (buildTree t.messages).children path true path) := by
  unfold walkTranscriptTree
  simp [hne, optTruthy, htgt, htne, hpath]

/-- Every branch event of a node on the path appears in the walk. -/
theorem branchEventsAt_mem_walkPathEvents (bySourceRef : AssocMap (List Message))
    (children : AssocMap (List String)) (pathSet : List String) (p : String)
    (pmsgs : List Message) (hpm : getA bySourceRef p = some pmsgs) :
    ∀ (l : List String), p ∈ l →
    ∀ ev ∈ branchEventsAt bySourceRef children pathSet p,
    ev ∈ walkPathEvents bySourceRef children pathSet true l := by
  intro l
  induction l with
  | nil => intro hmem; simp at hmem
  | cons x xs ih =>
    intro hmem ev hev
    rcases List.mem_cons.mp hmem with hx | hx
    · subst hx
      simp only [walkPathEvents, hpm]
      exact List.mem_cons_of_mem _ (List.mem_append_left _ (by simpa using hev))
    · have htail := ih hx ev hev
      simp only [walkPathEvents]
      cases getA bySourceRef x with
      | none => exact htail
      | some msgs =>
        exact List.mem_cons_of_mem _ (List.mem_append_right _ htail)

/-- At a path node with more than one child, one of whose children is off the
path and has a first message, branchEventsAt emits exactly one branch note,
and that note lists the off-path child with the first line of its first
message. -/
theorem branchEventsAt_spec (bySourceRef : AssocMap (List Message))
    (children : AssocMap (List String)) (pathSet : List String) (p x : String)
    (childSet : List String) (hcs : getA children p = some childSet)
    (hlen : childSet.length > 1) (hx : x ∈ childSet) (hxo : x ∉ pathSet)
    (m : Message) (ms : List Message)
    (hxm : getA bySourceRef x = some (m :: ms)) :
    ∃ branches, branchEventsAt bySourceRef children pathSet p =
      [.branchNote branches] ∧
      (⟨x, getFirstLine m⟩ : BranchInfo) ∈ branches := by
  have hmem : (⟨x, getFirstLine m⟩ : BranchInfo) ∈
      childSet.filterMap (branchInfoFor bySourceRef pathSet) := by
    apply List.mem_filterMap.mpr
    refine ⟨x, hx, ?_⟩
    unfold branchInfoFor
    rw [if_neg hxo, hxm]
  have hne2 : (childSet.filterMap (branchInfoFor bySourceRef pathSet)).isEmpty
      = false := by
    cases hfm : childSet.filterMap (branchInfoFor bySourceRef pathSet) with
    | nil => rw [hfm] at hmem; cases hmem
    | cons a l => rfl
  refine ⟨childSet.filterMap (branchInfoFor bySourceRef pathSet), ?_, hmem⟩
  unfold branchEventsAt
  rw [hcs]
  simp [hlen, hne2]

end Tree

namespace Render

/-! ## Unfolding lemmas for renderTranscript -/

theorem renderTranscript_head_missing (t : Transcript) (h : String)
    (hne : t.messages.isEmpty = false) (hh : h ≠ "")
    (habs : hasA (Tree.buildTree t.messages).bySourceRef h = false) :
    renderTranscript t { head := some h } =
      some (String.intercalate "\n" (headerLines t none ++
        ["", "**Error**: Message ID `" ++ h ++ "` not found"])) := by
  unfold renderTranscript
  simp [hne, optTruthy, hh, habs]

theorem renderTranscript_fallback (t : Transcript)
    (hne : t.messages.isEmpty = false)
    (hnoleaf : Tree.findLatestLeaf (Tree.buildTree t.messages).bySourceRef
      (Tree.buildTree t.messages).children = none) :
    renderTranscript t {} =
      some (String.intercalate "\n"
        (headerLines t none ++ fallbackLines t.messages)) := by
  unfold renderTranscript
  simp [hne, optTruthy, hnoleaf]

end Render

namespace Split

/-! ## Termination of the cycle-guarded resolveParent loop -/

/-- The visited set makes the resolveParent loop halt: any fuel that covers
the entries whose key is not yet visited is enough, so the loop runs at most
one iteration per skipped node. -/
theorem skipChainAux_total (skippedParents : AssocMap (Option String)) :
    ∀ (fuel : Nat) (current : Option String) (visited : List String),
    (skippedParents.filter (fun kv => decide (kv.1 ∉ visited))).length ≤ fuel →
    (skipChainAux skippedParents fuel current visited).isSome := by
  intro fuel
  induction fuel with
  | zero =>
    intro current visited h
    match current with
    | none => simp [skipChainAux]
    | some c =>
      by_cases hc : c = ""
      · simp [skipChainAux, hc]
      · by_cases hhas : hasA skippedParents c = true
        · by_cases hvis : c ∈ visited
          · simp [skipChainAux, hc, hhas, hvis]
          · obtain ⟨v, hv⟩ := Option.isSome_iff_exists.mp hhas
            have hmem := getA_mem hv
            have : 0 < (skippedParents.filter
                (fun kv => decide (kv.1 ∉ visited))).length := by
              apply List.length_pos_of_mem
              exact List.mem_filter.mpr ⟨hmem, by simpa using hvis⟩
            omega
        · simp [skipChainAux, hc, hhas]
  | succ f ih =>
    intro current visited h
    match current with
    | none => simp [skipChainAux]
    | some c =>
      by_cases hc : c = ""
      · simp [skipChainAux, hc]
      · by_cases hhas : hasA skippedParents c = true
        · by_cases hvis : c ∈ visited
          · simp [skipChainAux, hc, hhas, hvis]
          · obtain ⟨v, hv⟩ := Option.isSome_iff_exists.mp hhas
            simp only [skipChainAux, hc, if_false, hhas, not_true,
              Bool.not_true, hvis, if_neg, ite_false, ite_true]
            have hlt := filter_length_lt_of_mem skippedParents
              (fun kv => decide (kv.1 ∉ c :: visited))
              (fun kv => decide (kv.1 ∉ visited)) (c, v) (getA_mem hv)
              (by simpa using hvis) (by simp)
              (by intro x hx; simp at hx ⊢; exact fun hmem => (hx.2 hmem).elim)
            apply ih
            omega
        · simp [skipChainAux, hc, hhas]

/-- The resolveParent loop of both adapters halts with the fuel they use. -/
theorem skipChainAux_isSome (skippedParents : AssocMap (Option String))
    (current : Option String) :
    (skipChainAux skippedParents skippedParents.length current []).isSome := by
  apply skipChainAux_total
  have := List.length_filter_le (fun kv => decide (kv.1 ∉ ([] : List String)))
    skippedParents
  omega

/-! ## Termination and invariants of the conversation BFS -/

/-- Total length of the child lists of keys not yet visited: together with
the queue length this bounds the remaining BFS iterations. -/
def freshWeight (children : AssocMap (List String)) (visited : List String) : Nat :=
  ((children.filter (fun kv => decide (kv.1 ∉ visited))).map
    (fun kv => kv.2.length)).sum

theorem freshWeight_le_total (children : AssocMap (List String))
    (visited : List String) :
    freshWeight children visited ≤ (children.map (fun kv => kv.2.length)).sum := by
  induction children with
  | nil => simp [freshWeight]
  | cons kv rest ih =>
    unfold freshWeight at ih ⊢
    by_cases h : kv.1 ∉ visited
    · rw [List.filter_cons_of_pos (by simpa using h)]
      simp only [List.map_cons, List.sum_cons]
      omega
    · rw [List.filter_cons_of_neg (by simpa using h)]
      simp only [List.map_cons, List.sum_cons]
      omega

theorem freshWeight_anti (children : AssocMap (List String))
    (visited visited2 : List String) (hsub : ∀ x ∈ visited, x ∈ visited2) :
    freshWeight children visited2 ≤ freshWeight children visited := by
  induction children with
  | nil => simp [freshWeight]
  | cons kv rest ih =>
    unfold freshWeight at ih ⊢
    by_cases h2 : kv.1 ∉ visited2
    · have h1 : kv.1 ∉ visited := fun hmem => h2 (hsub _ hmem)
      rw [List.filter_cons_of_pos (by simpa using h2),
        List.filter_cons_of_pos (by simpa using h1)]
      simp only [List.map_cons, List.sum_cons]
      omega
    · rw [List.filter_cons_of_neg (by simpa using h2)]
      by_cases h1 : kv.1 ∉ visited
      · rw [List.filter_cons_of_pos (by simpa using h1)]
        simp only [List.map_cons, List.sum_cons]
        omega
      · rw [List.filter_cons_of_neg (by simpa using h1)]
        exact ih

theorem freshWeight_visit (children : AssocMap (List String))
    (visited : List String) (u : String) (cs : List String)
    (hget : getA children u = some cs) (hu : u ∉ visited) :
    freshWeight children (visited ++ [u]) + cs.length ≤
      freshWeight children visited := by
  induction children with
  | nil => simp [getA] at hget
  | cons kv rest ih =>
    obtain ⟨k, v⟩ := kv
    unfold freshWeight at ih ⊢
    by_cases hk : k = u
    · subst hk
      simp [getA] at hget
      subst hget
      have hnew : ¬ k ∉ visited ++ [k] := by simp
      rw [List.filter_cons_of_neg (by simp),
        List.filter_cons_of_pos (by simpa using hu)]
      simp only [List.map_cons, List.sum_cons]
      have := freshWeight_anti rest visited (visited ++ [k])
        (fun x hx => List.mem_append_left _ hx)
      unfold freshWeight at this
      omega
    · simp [getA, hk] at hget
      have ihx := ih hget
      by_cases hmem : k ∉ visited
      · have hmem2 : k ∉ visited ++ [u] := by
          intro hin
          rcases List.mem_append.mp hin with hin | hin
          · exact hmem hin
          · simp at hin; exact hk hin
        rw [List.filter_cons_of_pos (by simpa using hmem2),
          List.filter_cons_of_pos (by simpa using hmem)]
        simp only [List.map_cons, List.sum_cons]
        omega
      · have hmem2 : ¬ k ∉ visited ++ [u] := by
          simp at hmem
          simp [hmem]
        rw [List.filter_cons_of_neg (by simpa using hmem2),
          List.filter_cons_of_neg (by simpa using hmem)]
        exact ihx

/-- The BFS halts whenever the fuel covers the queue plus the child lists of
the unvisited keys. -/
theorem bfsAux_total {α : Type} (byId : AssocMap α)
    (children : AssocMap (List String)) :
    ∀ (fuel : Nat) (queue visited : List String) (conv : List α),
    queue.length + freshWeight children visited ≤ fuel →
    (bfsAux byId children fuel queue visited conv).isSome := by
  intro fuel
  induction fuel with
  | zero =>
    intro queue visited conv h
    match queue with
    | [] => simp [bfsAux]
    | u :: rest => simp at h
  | succ f ih =>
    intro queue visited conv h
    match queue with
    | [] => simp [bfsAux]
    | u :: rest =>
      by_cases hskip : u = "" ∨ u ∈ visited
      · simp only [bfsAux, hskip, if_true]
        apply ih
        simp at h
        omega
      · simp only [bfsAux, hskip, if_false]
        apply ih
        simp only [List.length_append]
        cases hget : getA children u with
        | none =>
          have hanti := freshWeight_anti children visited (visited ++ [u])
            (fun x hx => List.mem_append_left _ hx)
          simp only [hget, Option.getD_none, List.length_nil]
          simp at h
          omega
        | some cs =>
          push_neg at hskip
          have hvisit := freshWeight_visit children visited u cs hget hskip.2
          simp only [hget, Option.getD_some]
          simp at h
          omega

/-- The fuel splitConversations hands to each BFS run is always enough. -/
theorem bfsAux_isSome {α : Type} (byId : AssocMap α)
    (children : AssocMap (List String)) (root : String)
    (visited : List String) :
    (bfsAux byId children (bfsFuelFor children) [root] visited []).isSome := by
  apply bfsAux_total
  unfold bfsFuelFor
  have := freshWeight_le_total children visited
  simp
  omega

/-- The visited set only grows, by fresh nonempty ids. -/
theorem bfsAux_visited {α : Type} (byId : AssocMap α)
    (children : AssocMap (List String)) :
    ∀ (fuel : Nat) (queue visited : List String) (conv : List α)
      (v2 : List String) (c2 : List α),
    bfsAux byId children fuel queue visited conv = some (v2, c2) →
    ∃ l, v2 = visited ++ l ∧ ∀ x ∈ l, x ≠ "" ∧ x ∉ visited := by
  intro fuel
  induction fuel with
  | zero =>
    intro queue visited conv v2 c2 h
    match queue with
    | [] =>
      simp [bfsAux] at h
      exact ⟨[], by simp [h.1.symm]⟩
    | u :: rest => simp [bfsAux] at h
  | succ f ih =>
    intro queue visited conv v2 c2 h
    match queue with
    | [] =>
      simp [bfsAux] at h
      exact ⟨[], by simp [h.1.symm]⟩
    | u :: rest =>
      by_cases hskip : u = "" ∨ u ∈ visited
      · simp only [bfsAux, hskip, if_true] at h
        exact ih _ _ _ _ _ h
      · simp only [bfsAux, hskip, if_false] at h
        obtain ⟨l, hl, hfresh⟩ := ih _ _ _ _ _ h
        push_neg at hskip
        refine ⟨u :: l, by simpa using hl, ?_⟩
        intro x hx
        rcases List.mem_cons.mp hx with hx | hx
        · subst hx; exact ⟨hskip.1, hskip.2⟩
        · have := hfresh x hx
          constructor
          · exact this.1
          · intro hmem
            exact this.2 (List.mem_append_left _ hmem)

/-- Everything in the queue ends up visited. -/
theorem bfsAux_drain {α : Type} (byId : AssocMap α)
    (children : AssocMap (List String)) :
    ∀ (fuel : Nat) (queue visited : List String) (conv : List α)
      (v2 : List String) (c2 : List α),
    bfsAux byId children fuel queue visited conv = some (v2, c2) →
    ∀ x ∈ queue, x ≠ "" → x ∈ v2 := by
  intro fuel
  induction fuel with
  | zero =>
    intro queue visited conv v2 c2 h
    match queue with
    | [] => simp
    | u :: rest => simp [bfsAux] at h
  | succ f ih =>
    intro queue visited conv v2 c2 h
    match queue with
    | [] => simp
    | u :: rest =>
      intro x hx hxne
      by_cases hskip : u = "" ∨ u ∈ visited
      · simp only [bfsAux, hskip, if_true] at h
        rcases List.mem_cons.mp hx with hxu | hxr
        · subst hxu
          rcases hskip with hs | hs
          · exact absurd hs hxne
          · obtain ⟨l, hl, _⟩ := bfsAux_visited byId children _ _ _ _ _ _ h
            rw [hl]
            exact List.mem_append_left _ hs
        · exact ih _ _ _ _ _ h x hxr hxne
      · simp only [bfsAux, hskip, if_false] at h
        rcases List.mem_cons.mp hx with hxu | hxr
        · subst hxu
          obtain ⟨l, hl, _⟩ := bfsAux_visited byId children _ _ _ _ _ _ h
          rw [hl]
          exact List.mem_append_left _ (by simp)
        · exact ih _ _ _ _ _ h x (List.mem_append_left _ hxr) hxne

/-- The conversation list only grows. -/
theorem bfsAux_conv_sub {α : Type} (byId : AssocMap α)
    (children : AssocMap (List String)) :
    ∀ (fuel : Nat) (queue visited : List String) (conv : List α)
      (v2 : List String) (c2 : List α),
    bfsAux byId children fuel queue visited conv = some (v2, c2) →
    ∀ r ∈ conv, r ∈ c2 := by
  intro fuel
  induction fuel with
  | zero =>
    intro queue visited conv v2 c2 h
    match queue with
    | [] =>
      simp [bfsAux] at h
      intro r hr
      exact h.2 ▸ hr
    | u :: rest => simp [bfsAux] at h
  | succ f ih =>
    intro queue visited conv v2 c2 h
    match queue with
    | [] =>
      simp [bfsAux] at h
      intro r hr
      exact h.2 ▸ hr
    | w :: rest =>
      intro r hr
      by_cases hskip : w = "" ∨ w ∈ visited
      · simp only [bfsAux, hskip, if_true] at h
        exact ih _ _ _ _ _ h r hr
      · simp only [bfsAux, hskip, if_false] at h
        exact ih _ _ _ _ _ h r (List.mem_append_left _ hr)

/-- The children of every freshly visited node end up visited. -/
theorem bfsAux_closure {α : Type} (byId : AssocMap α)
    (children : AssocMap (List String)) :
    ∀ (fuel : Nat) (queue visited : List String) (conv : List α)
      (v2 : List String) (c2 : List α),
    bfsAux byId children fuel queue visited conv = some (v2, c2) →
    ∀ u, u ∈ v2 → u ∉ visited →
    ∀ c ∈ (getA children u).getD [], c ≠ "" → c ∈ v2 := by
  intro fuel
  induction fuel with
  | zero =>
    intro queue visited conv v2 c2 h
    match queue with
    | [] =>
      simp [bfsAux] at h
      intro u hu hu2
      rw [← h.1] at hu
      exact absurd hu hu2
    | u :: rest => simp [bfsAux] at h
  | succ f ih =>
    intro queue visited conv v2 c2 h
    match queue with
    | [] =>
      simp [bfsAux] at h
      intro u hu hu2
      rw [← h.1] at hu
      exact absurd hu hu2
    | w :: rest =>
      intro u hu hufresh c hc hcne
      by_cases hskip : w = "" ∨ w ∈ visited
      · simp only [bfsAux, hskip, if_true] at h
        exact ih _ _ _ _ _ h u hu hufresh c hc hcne
      · simp only [bfsAux, hskip, if_false] at h
        by_cases huw : u = w
        · subst huw
          exact bfsAux_drain byId children _ _ _ _ _ _ h c
            (List.mem_append_right _ hc) hcne
        · have hufresh2 : u ∉ visited ++ [w] := by
            intro hin
            rcases List.mem_append.mp hin with hin | hin
            · exact hufresh hin
            · simp at hin; exact huw hin
          exact ih _ _ _ _ _ h u hu hufresh2 c hc hcne

/-- Every record of the produced conversation was either there already or was
fetched under a freshly visited id. -/
theorem bfsAux_conv_mem {α : Type} (byId : AssocMap α)
    (children : AssocMap (List String)) :
    ∀ (fuel : Nat) (queue visited : List String) (conv : List α)
      (v2 : List String) (c2 : List α),
    bfsAux byId children fuel queue visited conv = some (v2, c2) →
    ∀ r ∈ c2, r ∈ conv ∨ ∃ u, u ∈ v2 ∧ u ∉ visited ∧ getA byId u = some r := by
  intro fuel
  induction fuel with
  | zero =>
    intro queue visited conv v2 c2 h
    match queue with
    | [] =>
      simp [bfsAux] at h
      intro r hr
      rw [← h.2] at hr
      exact Or.inl hr
    | u :: rest => simp [bfsAux] at h
  | succ f ih =>
    intro queue visited conv v2 c2 h
    match queue with
    | [] =>
      simp [bfsAux] at h
      intro r hr
      rw [← h.2] at hr
      exact Or.inl hr
    | w :: rest =>
      intro r hr
      by_cases hskip : w = "" ∨ w ∈ visited
      · simp only [bfsAux, hskip, if_true] at h
        exact ih _ _ _ _ _ h r hr
      · simp only [bfsAux, hskip, if_false] at h
        push_neg at hskip
        rcases ih _ _ _ _ _ h r hr with hold | ⟨u, hu, hufresh, hfetch⟩
        · rcases List.mem_append.mp hold with hold | hnew
          · exact Or.inl hold
          · right
            refine ⟨w, ?_, hskip.2, ?_⟩
            · obtain ⟨l, hl, _⟩ := bfsAux_visited byId children _ _ _ _ _ _ h
              rw [hl]
              exact List.mem_append_left _ (by simp)
            · cases hget : getA byId w with
              | none => rw [hget] at hnew; simp at hnew
              | some rec =>
                rw [hget] at hnew
                simp at hnew
                rw [hnew]
        · right
          refine ⟨u, hu, ?_, hfetch⟩
          intro hmem
          exact hufresh (List.mem_append_left _ hmem)

/-- Conversely, the record stored under every freshly visited id is put into
the conversation. -/
theorem bfsAux_fresh_fetch {α : Type} (byId : AssocMap α)
    (children : AssocMap (List String)) :
    ∀ (fuel : Nat) (queue visited : List String) (conv : List α)
      (v2 : List String) (c2 : List α),
    bfsAux byId children fuel queue visited conv = some (v2, c2) →
    ∀ u, u ∈ v2 → u ∉ visited → ∀ r, getA byId u = some r → r ∈ c2 := by
  intro fuel
  induction fuel with
  | zero =>
    intro queue visited conv v2 c2 h
    match queue with
    | [] =>
      simp [bfsAux] at h
      intro u hu hufresh
      rw [← h.1] at hu
      exact absurd hu hufresh
    | u :: rest => simp [bfsAux] at h
  | succ f ih =>
    intro queue visited conv v2 c2 h
    match queue with
    | [] =>
      simp [bfsAux] at h
      intro u hu hufresh
      rw [← h.1] at hu
      exact absurd hu hufresh
    | w :: rest =>
      intro u hu hufresh r hr
      by_cases hskip : w = "" ∨ w ∈ visited
      · simp only [bfsAux, hskip, if_true] at h
        exact ih _ _ _ _ _ h u hu hufresh r hr
      · simp only [bfsAux, hskip, if_false] at h
        by_cases huw : u = w
        · subst huw
          have hconv2 : r ∈ conv ++ (match getA byId u with
              | some rec => [rec] | none => ([] : List α)) := by
            rw [hr]
            exact List.mem_append_right _ (by simp)
          obtain ⟨l, hl, _⟩ := bfsAux_visited byId children _ _ _ _ _ _ h
          have hmono := bfsAux_conv_sub byId children _ _ _ _ _ _ h
          exact hmono r hconv2
        · have hufresh2 : u ∉ visited ++ [w] := by
            intro hin
            rcases List.mem_append.mp hin with hin | hin
            · exact hufresh hin
            · simp at hin; exact huw hin
          exact ih _ _ _ _ _ h u hu hufresh2 r hr

/-- One fixed record appears in the produced conversation exactly when its id
was freshly visited, provided ids identify records. -/
theorem bfsAux_conv_iff {α : Type} [DecidableEq α] (byId : AssocMap α)
    (children : AssocMap (List String)) (r0 : α) (u0 : String)
    (hkey : getA byId u0 = some r0)
    (hinj : ∀ u r, getA byId u = some r → r = r0 → u = u0) :
    ∀ (fuel : Nat) (queue visited : List String) (conv : List α)
      (v2 : List String) (c2 : List α),
    bfsAux byId children fuel queue visited conv = some (v2, c2) →
    (r0 ∈ c2 ↔ r0 ∈ conv ∨ (u0 ∈ v2 ∧ u0 ∉ visited)) := by
  intro fuel queue visited conv v2 c2 h
  constructor
  · intro hr
    rcases bfsAux_conv_mem byId children _ _ _ _ _ _ h r0 hr with
      hold | ⟨u, hu, huf, hfetch⟩
    · exact Or.inl hold
    · have := hinj u r0 hfetch rfl
      subst this
      exact Or.inr ⟨hu, huf⟩
  · intro hor
    rcases hor with hold | ⟨hu, huf⟩
    · exact bfsAux_conv_sub byId children _ _ _ _ _ _ h r0 hold
    · exact bfsAux_fresh_fetch byId children _ _ _ _ _ _ h u0 hu huf r0 hkey

/-! ## Invariants of the outer loop over roots -/

/-- The visited set only grows across the roots loop. -/
theorem rootsLoopAux_visited {α : Type} (byId : AssocMap α)
    (children : AssocMap (List String)) (bfsFuel : Nat) :
    ∀ (roots visited : List String) (convs : List (List α))
      (vF : List String) (convsF : List (List α)),
    rootsLoopAux byId children bfsFuel roots visited convs = some (vF, convsF) →
    ∃ l, vF = visited ++ l ∧ ∀ x ∈ l, x ≠ "" ∧ x ∉ visited := by
  intro roots
  induction roots with
  | nil =>
    intro visited convs vF convsF h
    simp [rootsLoopAux] at h
    exact ⟨[], by simp [h.1.symm]⟩
  | cons root rest ih =>
    intro visited convs vF convsF h
    by_cases hv : root ∈ visited
    · simp only [rootsLoopAux, hv, if_true] at h
      exact ih _ _ _ _ h
    · simp only [rootsLoopAux, hv, if_false] at h
      cases hbfs : bfsAux byId children bfsFuel [root] visited [] with
      | none => rw [hbfs] at h; simp at h
      | some res =>
        obtain ⟨v2, conv⟩ := res
        rw [hbfs] at h
        simp at h
        obtain ⟨l1, hl1, hf1⟩ := bfsAux_visited byId children _ _ _ _ _ _ hbfs
        obtain ⟨l2, hl2, hf2⟩ := ih _ _ _ _ h
        refine ⟨l1 ++ l2, by rw [hl2, hl1, List.append_assoc], ?_⟩
        intro x hx
        rcases List.mem_append.mp hx with hx | hx
        · exact hf1 x hx
        · have := hf2 x hx
          refine ⟨this.1, fun hmem => this.2 ?_⟩
          rw [hl1]
          exact List.mem_append_left _ hmem

/-- Every nonempty root is visited by the end of the roots loop. -/
theorem rootsLoopAux_roots_mem {α : Type} (byId : AssocMap α)
    (children : AssocMap (List String)) (bfsFuel : Nat) :
    ∀ (roots visited : List String) (convs : List (List α))
      (vF : List String) (convsF : List (List α)),
    rootsLoopAux byId children bfsFuel roots visited convs = some (vF, convsF) →
    ∀ root ∈ roots, root ≠ "" → root ∈ visited ∨ root ∈ vF := by
  intro roots
  induction roots with
  | nil => intro visited convs vF convsF h root hmem; simp at hmem
  | cons r rest ih =>
    intro visited convs vF convsF h root hmem hrne
    by_cases hv : r ∈ visited
    · simp only [rootsLoopAux, hv, if_true] at h
      rcases List.mem_cons.mp hmem with hx | hx
      · subst hx; exact Or.inl hv
      · exact ih _ _ _ _ h root hx hrne
    · simp only [rootsLoopAux, hv, if_false] at h
      cases hbfs : bfsAux byId children bfsFuel [r] visited [] with
      | none => rw [hbfs] at h; simp at h
      | some res =>
        obtain ⟨v2, conv⟩ := res
        rw [hbfs] at h
        simp at h
        obtain ⟨l2, hl2, _⟩ := rootsLoopAux_visited byId children bfsFuel _ _ _ _ _ h
        rcases List.mem_cons.mp hmem with hx | hx
        · subst hx
          right
          have hdrain := bfsAux_drain byId children _ _ _ _ _ _ hbfs root
            (by simp) hrne
          rw [hl2]
          exact List.mem_append_left _ hdrain
        · rcases ih _ _ _ _ h root hx hrne with hin | hin
          · right
            rw [hl2]
            exact List.mem_append_left _ hin
          · exact Or.inr hin

/-- The final visited set is closed under children of freshly visited ids. -/
theorem rootsLoopAux_closure {α : Type} (byId : AssocMap α)
    (children : AssocMap (List String)) (bfsFuel : Nat) :
    ∀ (roots visited : List String) (convs : List (List α))
      (vF : List String) (convsF : List (List α)),
    rootsLoopAux byId children bfsFuel roots visited convs = some (vF, convsF) →
    ∀ u, u ∈ vF → u ∉ visited →
    ∀ c ∈ (getA children u).getD [], c ≠ "" → c ∈ vF := by
  intro roots
  induction roots with
  | nil =>
    intro visited convs vF convsF h u hu hufresh
    simp [rootsLoopAux] at h
    rw [← h.1] at hu
    exact absurd hu hufresh
  | cons r rest ih =>
    intro visited convs vF convsF h u hu hufresh c hc hcne
    by_cases hv : r ∈ visited
    · simp only [rootsLoopAux, hv, if_true] at h
      exact ih _ _ _ _ h u hu hufresh c hc hcne
    · simp only [rootsLoopAux, hv, if_false] at h
      cases hbfs : bfsAux byId children bfsFuel [r] visited [] with
      | none => rw [hbfs] at h; simp at h
      | some res =>
        obtain ⟨v2, conv⟩ := res
        rw [hbfs] at h
        simp at h
        obtain ⟨l2, hl2, _⟩ := rootsLoopAux_visited byId children bfsFuel _ _ _ _ _ h
        by_cases hu2 : u ∈ v2
        · have hcv2 := bfsAux_closure byId children _ _ _ _ _ _ hbfs u hu2 hufresh
            c hc hcne
          rw [hl2]
          exact List.mem_append_left _ hcv2
        · exact ih _ _ _ _ h u hu hu2 c hc hcne

/-- Exact membership count of one record over the collected conversations:
one occurrence when its id was freshly visited, none otherwise. -/
theorem rootsLoopAux_count {α : Type} [DecidableEq α] (byId : AssocMap α)
    (children : AssocMap (List String)) (bfsFuel : Nat) (r0 : α) (u0 : String)
    (hkey : getA byId u0 = some r0)
    (hinj : ∀ u r, getA byId u = some r → r = r0 → u = u0) :
    ∀ (roots visited : List String) (convs : List (List α))
      (vF : List String) (convsF : List (List α)),
    rootsLoopAux byId children bfsFuel roots visited convs = some (vF, convsF) →
    convsF.countP (fun conv => decide (r0 ∈ conv)) =
      convs.countP (fun conv => decide (r0 ∈ conv)) +
      (if u0 ∈ vF ∧ u0 ∉ visited then 1 else 0) := by
  intro roots
  induction roots with
  | nil =>
    intro visited convs vF convsF h
    simp [rootsLoopAux] at h
    rw [← h.1, ← h.2]
    simp
  | cons r rest ih =>
    intro visited convs vF convsF h
    by_cases hv : r ∈ visited
    · simp only [rootsLoopAux, hv, if_true] at h
      exact ih _ _ _ _ h
    · simp only [rootsLoopAux, hv, if_false] at h
      cases hbfs : bfsAux byId children bfsFuel [r] visited [] with
      | none => rw [hbfs] at h; simp at h
      | some res =>
        obtain ⟨v2, conv⟩ := res
        rw [hbfs] at h
        simp at h
        obtain ⟨lb, hlb, _⟩ := bfsAux_visited byId children _ _ _ _ _ _ hbfs
        obtain ⟨l2, hl2, _⟩ := rootsLoopAux_visited byId children bfsFuel _ _ _ _ _ h
        have hiff := bfsAux_conv_iff byId children r0 u0 hkey hinj _ _ _ _ _ _ hbfs
        simp only [List.not_mem_nil, false_or] at hiff
        have hcount := ih _ _ _ _ h
        by_cases hA : u0 ∈ v2 ∧ u0 ∉ visited
        · have hr0 : r0 ∈ conv := hiff.mpr hA
          have hne : conv ≠ [] := by
            intro hc
            subst hc
            simp at hr0
          rw [if_neg hne] at hcount
          rw [hcount, List.countP_append]
          have hnotfresh : ¬ (u0 ∈ vF ∧ u0 ∉ v2) := fun hcon => hcon.2 hA.1
          have hyes : u0 ∈ vF ∧ u0 ∉ visited := by
            refine ⟨?_, hA.2⟩
            rw [hl2]
            exact List.mem_append_left _ hA.1
          simp [hnotfresh, hyes, hr0]
          exact hA.1
        · have hr0 : r0 ∉ conv := fun hmem => hA (hiff.mp hmem)
          have hsame : (if conv = [] then convs else
              convs ++ [conv]).countP (fun conv => decide (r0 ∈ conv)) =
              convs.countP (fun conv => decide (r0 ∈ conv)) := by
            by_cases hce : conv = []
            · simp [hce]
            · rw [if_neg hce, List.countP_append]
              simp [hr0]
          rw [hcount, hsame]
          have hcond : (u0 ∈ vF ∧ u0 ∉ v2) ↔ (u0 ∈ vF ∧ u0 ∉ visited) := by
            constructor
            · intro hcon
              refine ⟨hcon.1, fun hmem => hcon.2 ?_⟩
              rw [hlb]
              exact List.mem_append_left _ hmem
            · intro hcon
              refine ⟨hcon.1, fun hmem => ?_⟩
              exact hA ⟨hmem, hcon.2⟩
          by_cases hfin : u0 ∈ vF ∧ u0 ∉ visited
          · simp [hfin, hcond.mpr hfin]
          · have : ¬ (u0 ∈ vF ∧ u0 ∉ v2) := fun hcon => hfin (hcond.mp hcon)
            simp [hfin, this]

/-! ## The conversation sort -/

theorem insertAsc_perm {α : Type} (key : α → Int) (x : α) (l : List α) :
    (insertAsc key x l).Perm (x :: l) := by
  induction l with
  | nil => simp [insertAsc]
  | cons y ys ih =>
    unfold insertAsc
    by_cases h : key y < key x
    · simp only [h, if_true]
      exact List.Perm.trans (List.Perm.cons y ih) (List.Perm.swap x y ys)
    · simp [h]

theorem sortAsc_perm {α : Type} (key : α → Int) (l : List α) :
    (sortAsc key l).Perm l := by
  induction l with
  | nil => simp [sortAsc]
  | cons x xs ih =>
    unfold sortAsc
    exact List.Perm.trans (insertAsc_perm key x (sortAsc key xs))
      (List.Perm.cons x ih)

theorem insertAsc_sorted {α : Type} (key : α → Int) (x : α) (l : List α)
    (h : l.Pairwise (fun a b => key a ≤ key b)) :
    (insertAsc key x l).Pairwise (fun a b => key a ≤ key b) := by
  induction l with
  | nil => simp [insertAsc]
  | cons y ys ih =>
    rcases List.pairwise_cons.mp h with ⟨hy, hys⟩
    unfold insertAsc
    by_cases hlt : key y < key x
    · simp only [hlt, if_true]
      apply List.pairwise_cons.mpr
      constructor
      · intro z hz
        have hz2 := (insertAsc_perm key x ys).mem_iff.mp hz
        rcases List.mem_cons.mp hz2 with hz2 | hz2
        · subst hz2; omega
        · exact hy z hz2
      · exact ih hys
    · rw [if_neg hlt]
      apply List.pairwise_cons.mpr
      constructor
      · intro z hz
        rcases List.mem_cons.mp hz with hz | hz
        · subst hz; omega
        · have := hy z hz; omega
      · exact h

theorem sortAsc_sorted {α : Type} (key : α → Int) (l : List α) :
    (sortAsc key l).Pairwise (fun a b => key a ≤ key b) := by
  induction l with
  | nil => simp [sortAsc]
  | cons x xs ih => exact insertAsc_sorted key x (sortAsc key xs) ih

/-- The redirect chain of elided nodes: SkipChain skippedParents c r holds
when following redirect targets from c through elided (skipped) ids reaches
r as the first id that is not elided. -/
inductive SkipChain (skippedParents : AssocMap (Option String)) :
    String → String → Prop where
  | stop (c : String) (h : hasA skippedParents c = false) :
      SkipChain skippedParents c c
  | step (c next r : String)
      (h : getA skippedParents c = some (some next)) (hne : next ≠ "")
      (htail : SkipChain skippedParents next r) :
      SkipChain skippedParents c r

/-- When the resolveParent loop reports an id, that id is the first
non-elided id on the redirect chain from the start. -/
theorem skipChainAux_chain (skippedParents : AssocMap (Option String)) :
    ∀ (fuel : Nat) (c : String) (visited : List String) (r : String),
    skipChainAux skippedParents fuel (some c) visited = some (some r) →
    c ≠ "" → r ≠ "" →
    SkipChain skippedParents c r := by
  intro fuel
  induction fuel with
  | zero =>
    intro c visited r h hc hr
    simp only [skipChainAux, hc, if_false, if_neg] at h
    by_cases hhas : hasA skippedParents c = true
    · simp only [hhas, not_true, Bool.not_true, if_false, ite_false] at h
      by_cases hvis : c ∈ visited
      · simp [hvis] at h
      · simp [hvis] at h
    · simp only [hhas] at h
      simp at h
      subst h
      exact SkipChain.stop c (by simpa using hhas)
  | succ f ih =>
    intro c visited r h hc hr
    simp only [skipChainAux, hc, if_false, if_neg] at h
    by_cases hhas : hasA skippedParents c = true
    · simp only [hhas, not_true, Bool.not_true, if_false, ite_false] at h
      by_cases hvis : c ∈ visited
      · simp [hvis] at h
      · simp only [hvis, if_false, ite_false] at h
        obtain ⟨v, hv⟩ := Option.isSome_iff_exists.mp hhas
        rw [hv] at h
        cases v with
        | none =>
          simp only [Option.some_bind, id_eq] at h
          simp [skipChainAux] at h
        | some next =>
          simp only [Option.some_bind, id_eq] at h
          by_cases hn : next = ""
          · subst hn
            have hres : skipChainAux skippedParents f (some "") (c :: visited) =
                some (some "") := by
              cases f <;> simp [skipChainAux]
            rw [hres] at h
            simp at h
            exact absurd h.symm hr
          · exact SkipChain.step c next r hv hn (ih next _ r h hn hr)
    · simp only [hhas] at h
      simp at h
      subst h
      exact SkipChain.stop c (by simpa using hhas)

/-- The roots loop halts with the fuel splitConversations uses. -/
theorem rootsLoopAux_total {α : Type} (byId : AssocMap α)
    (children : AssocMap (List String)) :
    ∀ (roots visited : List String) (convs : List (List α)),
    (rootsLoopAux byId children (bfsFuelFor children) roots visited convs).isSome := by
  intro roots
  induction roots with
  | nil => intro visited convs; simp [rootsLoopAux]
  | cons r rest ih =>
    intro visited convs
    by_cases hv : r ∈ visited
    · simp only [rootsLoopAux, hv, if_true]
      exact ih _ _
    · simp only [rootsLoopAux, hv, if_false]
      cases hbfs : bfsAux byId children (bfsFuelFor children) [r] visited [] with
      | none =>
        have := bfsAux_isSome byId children r visited
        rw [hbfs] at this
        simp at this
      | some res =>
        obtain ⟨v2, conv⟩ := res
        exact ih _ _

end Split

namespace Claude

/-! ## Termination of the cycle-guarded findMessageAncestor loop -/

/-- The visited set makes the findMessageAncestor loop halt: fuel covering
the unvisited records plus one final lookup is enough. -/
theorem findMessageAncestorAux_total (allByUuid : AssocMap ClaudeRecord)
    (messageUuids : List String) :
    ∀ (fuel : Nat) (current : Option String) (visited : List String),
    (allByUuid.filter (fun kv => decide (kv.1 ∉ visited))).length + 1 ≤ fuel →
    (findMessageAncestorAux allByUuid messageUuids fuel current visited).isSome := by
  intro fuel
  induction fuel with
  | zero => intro current visited h; omega
  | succ f ih =>
    intro current visited h
    match current with
    | none => simp [findMessageAncestorAux]
    | some c =>
      by_cases hc : c = ""
      · simp [findMessageAncestorAux, hc]
      · by_cases hvis : c ∈ visited
        · simp [findMessageAncestorAux, hc, hvis]
        · by_cases hmsg : c ∈ messageUuids
          · simp [findMessageAncestorAux, hc, hvis, hmsg]
          · simp only [findMessageAncestorAux, hc, if_false, hvis, hmsg,
              ite_false, ite_true, if_neg]
            cases hrec : getA allByUuid c with
            | none =>
              simp only [hrec, Option.bind]
              match f with
              | 0 => simp [findMessageAncestorAux]
              | f + 1 => simp [findMessageAncestorAux]
            | some rec =>
              have hlt := filter_length_lt_of_mem allByUuid
                (fun kv => decide (kv.1 ∉ c :: visited))
                (fun kv => decide (kv.1 ∉ visited)) (c, rec) (getA_mem hrec)
                (by simpa using hvis) (by simp)
                (by intro x hx; simp at hx ⊢; exact fun hmem => (hx.2 hmem).elim)
              apply ih
              omega

/-- findMessageAncestor agrees with its loop at the fuel it uses. -/
theorem findMessageAncestor_eq_aux (parentUuid : Option String)
    (allByUuid : AssocMap ClaudeRecord) (messageUuids : List String) :
    findMessageAncestorAux allByUuid messageUuids (allByUuid.length + 1)
      parentUuid [] = some (findMessageAncestor parentUuid allByUuid messageUuids) := by
  have htot := findMessageAncestorAux_total allByUuid messageUuids
    (allByUuid.length + 1) parentUuid []
    (by
      have := List.length_filter_le (fun kv => decide (kv.1 ∉ ([] : List String)))
        allByUuid
      omega)
  unfold findMessageAncestor
  cases hr : findMessageAncestorAux allByUuid messageUuids (allByUuid.length + 1)
      parentUuid [] with
  | none => rw [hr] at htot; simp at htot
  | some r => rfl

/-- A found ancestor is a message uuid and nonempty. -/
theorem findMessageAncestorAux_mem (allByUuid : AssocMap ClaudeRecord)
    (messageUuids : List String) :
    ∀ (fuel : Nat) (current : Option String) (visited : List String) (a : String),
    findMessageAncestorAux allByUuid messageUuids fuel current visited =
      some (some a) →
    a ∈ messageUuids ∧ a ≠ "" := by
  intro fuel
  induction fuel with
  | zero =>
    intro current visited a h
    match current with
    | none => simp [findMessageAncestorAux] at h
    | some c =>
      by_cases hc : c = ""
      · simp [findMessageAncestorAux, hc] at h
      · by_cases hvis : c ∈ visited
        · simp [findMessageAncestorAux, hc, hvis] at h
        · by_cases hmsg : c ∈ messageUuids
          · simp [findMessageAncestorAux, hc, hvis, hmsg] at h
            subst h
            exact ⟨hmsg, hc⟩
          · simp [findMessageAncestorAux, hc, hvis, hmsg] at h
  | succ f ih =>
    intro current visited a h
    match current with
    | none => simp [findMessageAncestorAux] at h
    | some c =>
      by_cases hc : c = ""
      · simp [findMessageAncestorAux, hc] at h
      · by_cases hvis : c ∈ visited
        · simp [findMessageAncestorAux, hc, hvis] at h
        · by_cases hmsg : c ∈ messageUuids
          · simp [findMessageAncestorAux, hc, hvis, hmsg] at h
            subst h
            exact ⟨hmsg, hc⟩
          · simp only [findMessageAncestorAux, hc, if_false, hvis, hmsg,
              ite_false, ite_true, if_neg] at h
            exact ih _ _ a h

/-- findMessageAncestor only returns message uuids, never the empty string. -/
theorem findMessageAncestor_mem (parentUuid : Option String)
    (allByUuid : AssocMap ClaudeRecord) (messageUuids : List String)
    (a : String)
    (h : findMessageAncestor parentUuid allByUuid messageUuids = some a) :
    a ∈ messageUuids ∧ a ≠ "" := by
  have := findMessageAncestor_eq_aux parentUuid allByUuid messageUuids
  rw [h] at this
  exact findMessageAncestorAux_mem allByUuid messageUuids _ _ _ a this

/-! ## Invariants of the graph-building loop of splitConversations -/

theorem mem_addS (s : List String) (y x : String) :
    x ∈ addS s y ↔ x ∈ s ∨ x = y := by
  unfold addS
  by_cases h : y ∈ s
  · simp [h]
    intro hx
    subst hx
    exact h
  · simp [h]

theorem mem_uuidFold (recs : List ClaudeRecord) :
    ∀ (s : List String) (x : String),
    x ∈ recs.foldl
      (fun s r => if optTruthy r.uuid then addS s (r.uuid.getD "") else s) s ↔
    x ∈ s ∨ ∃ r ∈ recs, r.uuid = some x ∧ x ≠ "" := by
  induction recs with
  | nil => simp
  | cons r rest ih =>
    intro s x
    simp only [List.foldl_cons]
    by_cases hr : optTruthy r.uuid = true
    · rw [if_pos hr]
      rw [ih]
      rw [mem_addS]
      cases hu : r.uuid with
      | none => simp [optTruthy, hu] at hr
      | some v =>
        simp [optTruthy, hu] at hr
        simp only [hu, Option.getD_some]
        constructor
        · intro hc
          rcases hc with (hc | hc) | hc
          · exact Or.inl hc
          · subst hc; exact Or.inr ⟨r, by simp [hu, hr]⟩
          · obtain ⟨r2, hr2, hr2u⟩ := hc
            exact Or.inr ⟨r2, List.mem_cons_of_mem _ hr2, hr2u⟩
        · intro hc
          rcases hc with hc | ⟨r2, hr2, hr2u, hx⟩
          · exact Or.inl (Or.inl hc)
          · rcases List.mem_cons.mp hr2 with hr2 | hr2
            · subst hr2
              rw [hu] at hr2u
              simp at hr2u
              exact Or.inl (Or.inr hr2u.symm)
            · exact Or.inr ⟨r2, hr2, hr2u, hx⟩
    · rw [if_neg hr]
      rw [ih]
      constructor
      · intro hc
        rcases hc with hc | ⟨r2, hr2, hr2u, hx⟩
        · exact Or.inl hc
        · exact Or.inr ⟨r2, List.mem_cons_of_mem _ hr2, hr2u, hx⟩
      · intro hc
        rcases hc with hc | ⟨r2, hr2, hr2u, hx⟩
        · exact Or.inl hc
        · rcases List.mem_cons.mp hr2 with hr2 | hr2
          · subst hr2
            rw [hr2u] at hr
            simp [optTruthy] at hr
            exact absurd hr hx
          · exact Or.inr ⟨r2, hr2, hr2u, hx⟩

/-- The message uuid set is exactly the set of uuids of message records. -/
theorem mem_messageUuidsOf (records : List ClaudeRecord) (x : String) :
    x ∈ messageUuidsOf records ↔
      ∃ r ∈ messageRecords records, r.uuid = some x ∧ x ≠ "" := by
  unfold messageUuidsOf
  rw [mem_uuidFold]
  simp

/-- Records in messageRecords have truthy uuids. -/
theorem messageRecords_uuid (records : List ClaudeRecord) (r : ClaudeRecord)
    (h : r ∈ messageRecords records) : optTruthy r.uuid = true := by
  unfold messageRecords at h
  have hp := List.of_mem_filter h
  simp at hp
  exact hp.1

/-- The byUuid component of one graph step. -/
theorem graphStep_byUuid (allByUuid : AssocMap ClaudeRecord)
    (messageUuids : List String) (acc : GraphAcc) (rec : ClaudeRecord) :
    (graphStep allByUuid messageUuids acc rec).byUuid =
      if optTruthy rec.uuid then setA acc.byUuid (rec.uuid.getD "") rec
      else acc.byUuid := by
  unfold graphStep
  by_cases ht : optTruthy rec.uuid = true
  · simp only [ht, not_true, Bool.not_true, if_true, ite_false, if_neg]
    split <;> rfl
  · simp [ht]

/-- The resolvedParents component of one graph step. -/
theorem graphStep_resolvedParents (allByUuid : AssocMap ClaudeRecord)
    (messageUuids : List String) (acc : GraphAcc) (rec : ClaudeRecord) :
    (graphStep allByUuid messageUuids acc rec).resolvedParents =
      if optTruthy rec.uuid then
        setA acc.resolvedParents (rec.uuid.getD "")
          (findMessageAncestor rec.parentUuid allByUuid messageUuids)
      else acc.resolvedParents := by
  unfold graphStep
  by_cases ht : optTruthy rec.uuid = true
  · simp only [ht, not_true, Bool.not_true, if_true, ite_false, if_neg]
    split <;> rfl
  · simp [ht]

/-- The children component of one graph step. -/
theorem graphStep_children (allByUuid : AssocMap ClaudeRecord)
    (messageUuids : List String) (acc : GraphAcc) (rec : ClaudeRecord) :
    (graphStep allByUuid messageUuids acc rec).children =
      if optTruthy rec.uuid ∧
          optTruthy (findMessageAncestor rec.parentUuid allByUuid messageUuids) then
        setA acc.children
          ((findMessageAncestor rec.parentUuid allByUuid messageUuids).getD "")
          (((getA acc.children
              ((findMessageAncestor rec.parentUuid allByUuid
                messageUuids).getD "")).getD []) ++ [rec.uuid.getD ""])
      else acc.children := by
  unfold graphStep
  by_cases ht : optTruthy rec.uuid = true
  · by_cases ha :
        optTruthy (findMessageAncestor rec.parentUuid allByUuid messageUuids) = true
    · simp [ht, ha]
    · simp [ht, ha]
  · simp [ht]

/-- The roots component of one graph step. -/
theorem graphStep_roots (allByUuid : AssocMap ClaudeRecord)
    (messageUuids : List String) (acc : GraphAcc) (rec : ClaudeRecord) :
    (graphStep allByUuid messageUuids acc rec).roots =
      if optTruthy rec.uuid ∧
          ¬ optTruthy (findMessageAncestor rec.parentUuid allByUuid messageUuids) then
        acc.roots ++ [rec.uuid.getD ""]
      else acc.roots := by
  unfold graphStep
  by_cases ht : optTruthy rec.uuid = true
  · by_cases ha :
        optTruthy (findMessageAncestor rec.parentUuid allByUuid messageUuids) = true
    · simp [ht, ha]
    · simp [ht, ha]
  · simp [ht]

/-- The graph loop stores records under their own uuid. -/
theorem graphFold_byUuid_inv (allByUuid : AssocMap ClaudeRecord)
    (messageUuids : List String) :
    ∀ (recs : List ClaudeRecord) (acc : GraphAcc),
    (∀ u r, getA acc.byUuid u = some r → r.uuid = some u) →
    ∀ u r,
      getA ((recs.foldl (graphStep allByUuid messageUuids) acc)).byUuid u =
        some r → r.uuid = some u := by
  intro recs
  induction recs with
  | nil => intro acc hinv; exact hinv
  | cons rec rest ih =>
    intro acc hinv
    apply ih
    intro u r h
    rw [graphStep_byUuid] at h
    by_cases ht : optTruthy rec.uuid = true
    · rw [if_pos ht] at h
      cases hu : rec.uuid with
      | none => simp [optTruthy, hu] at ht
      | some v =>
        simp [optTruthy, hu] at ht
        rw [hu] at h
        simp only [Option.getD_some] at h
        by_cases hv : v = u
        · subst hv
          rw [getA_setA_self] at h
          injection h with h
          subst h
          exact hu
        · rw [getA_setA_ne _ _ _ _ hv] at h
          exact hinv u r h
    · rw [if_neg ht] at h
      exact hinv u r h

/-- The stored-under-own-uuid invariant for graphOf. -/
theorem graphOf_byUuid_inv (records : List ClaudeRecord) :
    ∀ u r, getA (graphOf records).byUuid u = some r → r.uuid = some u := by
  unfold graphOf
  apply graphFold_byUuid_inv
  intro u r h
  simp [getA] at h

/-- byUuid entries survive steps of records with other uuids. -/
theorem graphFold_byUuid_stable (allByUuid : AssocMap ClaudeRecord)
    (messageUuids : List String) :
    ∀ (recs : List ClaudeRecord) (acc : GraphAcc) (u : String) (r : ClaudeRecord),
    getA acc.byUuid u = some r →
    (∀ r2 ∈ recs, r2.uuid ≠ some u) →
    getA ((recs.foldl (graphStep allByUuid messageUuids) acc)).byUuid u = some r := by
  intro recs
  induction recs with
  | nil => intro acc u r h _; exact h
  | cons rec rest ih =>
    intro acc u r h hne
    apply ih _ _ _ _ (fun r2 hr2 => hne r2 (List.mem_cons_of_mem _ hr2))
    rw [graphStep_byUuid]
    by_cases ht : optTruthy rec.uuid = true
    · rw [if_pos ht]
      cases hu : rec.uuid with
      | none => simp [optTruthy, hu] at ht
      | some v =>
        simp only [Option.getD_some]
        have hvu : v ≠ u := by
          intro hvu
          subst hvu
          exact hne rec (by simp) hu
        rw [getA_setA_ne _ _ _ _ hvu]
        exact h
    · rw [if_neg ht]
      exact h

/-- resolvedParents entries survive steps of records with other uuids. -/
theorem graphFold_rp_stable (allByUuid : AssocMap ClaudeRecord)
    (messageUuids : List String) :
    ∀ (recs : List ClaudeRecord) (acc : GraphAcc) (u : String)
      (p : Option String),
    getA acc.resolvedParents u = some p →
    (∀ r2 ∈ recs, r2.uuid ≠ some u) →
    getA ((recs.foldl (graphStep allByUuid messageUuids) acc)).resolvedParents u =
      some p := by
  intro recs
  induction recs with
  | nil => intro acc u p h _; exact h
  | cons rec rest ih =>
    intro acc u p h hne
    apply ih _ _ _ _ (fun r2 hr2 => hne r2 (List.mem_cons_of_mem _ hr2))
    rw [graphStep_resolvedParents]
    by_cases ht : optTruthy rec.uuid = true
    · rw [if_pos ht]
      cases hu : rec.uuid with
      | none => simp [optTruthy, hu] at ht
      | some v =>
        simp only [Option.getD_some]
        have hvu : v ≠ u := by
          intro hvu
          subst hvu
          exact hne rec (by simp) hu
        rw [getA_setA_ne _ _ _ _ hvu]
        exact h
    · rw [if_neg ht]
      exact h

/-- children membership is monotone along the graph loop. -/
theorem graphFold_children_mono (allByUuid : AssocMap ClaudeRecord)
    (messageUuids : List String) :
    ∀ (recs : List ClaudeRecord) (acc : GraphAcc) (k x : String),
    x ∈ (getA acc.children k).getD [] →
    x ∈ (getA ((recs.foldl (graphStep allByUuid messageUuids) acc)).children
      k).getD [] := by
  intro recs
  induction recs with
  | nil => intro acc k x h; exact h
  | cons rec rest ih =>
    intro acc k x h
    apply ih
    rw [graphStep_children]
    by_cases hc : optTruthy rec.uuid = true ∧
        optTruthy (findMessageAncestor rec.parentUuid allByUuid messageUuids) = true
    · rw [if_pos hc]
      by_cases hk :
          (findMessageAncestor rec.parentUuid allByUuid messageUuids).getD "" = k
      · rw [hk, getA_setA_self]
        simp only [Option.getD_some]
        rw [hk] at *
        exact List.mem_append_left _ h
      · rw [getA_setA_ne _ _ _ _ hk]
        exact h
    · rw [if_neg hc]
      exact h

/-- roots membership is monotone along the graph loop. -/
theorem graphFold_roots_mono (allByUuid : AssocMap ClaudeRecord)
    (messageUuids : List String) :
    ∀ (recs : List ClaudeRecord) (acc : GraphAcc) (x : String),
    x ∈ acc.roots →
    x ∈ ((recs.foldl (graphStep allByUuid messageUuids) acc)).roots := by
  intro recs
  induction recs with
  | nil => intro acc x h; exact h
  | cons rec rest ih =>
    intro acc x h
    apply ih
    rw [graphStep_roots]
    by_cases hc : optTruthy rec.uuid = true ∧
        ¬ optTruthy (findMessageAncestor rec.parentUuid allByUuid messageUuids) = true
    · rw [if_pos hc]
      exact List.mem_append_left _ h
    · rw [if_neg hc]
      exact h

/-- What the graph loop records for one message record whose uuid is unique in
the file: its byUuid entry, its resolved parent, and its place among the
children of its ancestor or among the roots. -/
theorem graphOf_facts (records : List ClaudeRecord) (rec : ClaudeRecord)
    (u : String)
    (hmem : rec ∈ messageRecords records)
    (huuid : rec.uuid = some u)
    (hnodup : ((messageRecords records).map (fun r => r.uuid.getD "")).Nodup) :
    getA (graphOf records).byUuid u = some rec ∧
    getA (graphOf records).resolvedParents u =
      some (findMessageAncestor rec.parentUuid (allByUuidOf records)
        (messageUuidsOf records)) ∧
    (optTruthy (findMessageAncestor rec.parentUuid (allByUuidOf records)
        (messageUuidsOf records)) = true →
      u ∈ (getA (graphOf records).children
        ((findMessageAncestor rec.parentUuid (allByUuidOf records)
          (messageUuidsOf records)).getD "")).getD []) ∧
    (optTruthy (findMessageAncestor rec.parentUuid (allByUuidOf records)
        (messageUuidsOf records)) = false →
      u ∈ (graphOf records).roots) := by
  obtain ⟨pre, post, hsplit⟩ := List.append_of_mem hmem
  have ht : optTruthy rec.uuid = true := messageRecords_uuid records rec hmem
  have hgetd : rec.uuid.getD "" = u := by rw [huuid]; rfl
  have hpost : ∀ r2 ∈ post, r2.uuid ≠ some u := by
    intro r2 hr2 hr2u
    rw [hsplit] at hnodup
    rw [List.map_append, List.map_cons] at hnodup
    have hd := (List.nodup_append.mp hnodup).2.1
    rw [List.nodup_cons] at hd
    apply hd.1
    rw [hgetd]
    refine List.mem_map.mpr ⟨r2, hr2, ?_⟩
    rw [hr2u]
    rfl
  unfold graphOf
  rw [hsplit, List.foldl_append, List.foldl_cons]
  set acc1 := pre.foldl
    (graphStep (allByUuidOf records) (messageUuidsOf records)) ⟨[], [], [], []⟩
    with hacc1
  refine ⟨?_, ?_, ?_, ?_⟩
  · apply graphFold_byUuid_stable _ _ _ _ _ _ _ hpost
    rw [graphStep_byUuid, if_pos ht, hgetd]
    exact getA_setA_self _ _ _
  · apply graphFold_rp_stable _ _ _ _ _ _ _ hpost
    rw [graphStep_resolvedParents, if_pos ht, hgetd]
    exact getA_setA_self _ _ _
  · intro hanc
    apply graphFold_children_mono
    rw [graphStep_children, if_pos ⟨ht, hanc⟩, getA_setA_self]
    simp only [Option.getD_some]
    rw [hgetd]
    exact List.mem_append_right _ (by simp)
  · intro hanc
    apply graphFold_roots_mono
    rw [graphStep_roots, if_pos ⟨ht, by simp [hanc]⟩]
    rw [hgetd]
    exact List.mem_append_right _ (by simp)

/-- Every message uuid whose resolved-ancestor chain admits a decreasing
measure ends up visited by the conversation collection. -/
theorem graphOf_complete (records : List ClaudeRecord) (f : String → Nat)
    (hdec : ∀ k v, getA (graphOf records).resolvedParents k = some (some v) →
      f v < f k)
    (hnodup : ((messageRecords records).map (fun r => r.uuid.getD "")).Nodup)
    (vF : List String) (convsRaw : List (List ClaudeRecord))
    (hloop : Split.rootsLoopAux (graphOf records).byUuid (graphOf records).children
      (Split.bfsFuelFor (graphOf records).children) (graphOf records).roots [] [] =
      some (vF, convsRaw)) :
    ∀ u ∈ messageUuidsOf records, u ∈ vF := by
  have H : ∀ n u, f u = n → u ∈ messageUuidsOf records → u ∈ vF := by
    intro n
    induction n using Nat.strong_induction_on with
    | _ n ih =>
      intro u hfu hu
      obtain ⟨rec2, hrec2, huuid2, hune⟩ := (mem_messageUuidsOf records u).mp hu
      obtain ⟨hby, hrp, hch, hrt⟩ := graphOf_facts records rec2 u hrec2 huuid2 hnodup
      by_cases hanc : optTruthy (findMessageAncestor rec2.parentUuid
          (allByUuidOf records) (messageUuidsOf records)) = true
      · cases ha : findMessageAncestor rec2.parentUuid (allByUuidOf records)
            (messageUuidsOf records) with
        | none => rw [ha] at hanc; simp [optTruthy] at hanc
        | some a =>
          obtain ⟨haMem, _⟩ := findMessageAncestor_mem rec2.parentUuid
            (allByUuidOf records) (messageUuidsOf records) a ha
          have hedge : getA (graphOf records).resolvedParents u = some (some a) := by
            rw [hrp, ha]
          have hfa : f a < f u := hdec u a hedge
          have haF : a ∈ vF := ih (f a) (by omega) a rfl haMem
          have hchm := hch hanc
          rw [ha] at hchm
          simp only [Option.getD_some] at hchm
          exact Split.rootsLoopAux_closure _ _ _ _ _ _ _ _ hloop a haF
            (by simp) u hchm hune
      · have hrtm := hrt (by simpa using hanc)
        rcases Split.rootsLoopAux_roots_mem _ _ _ _ _ _ _ _ hloop u hrtm hune with
          hin | hin
        · simp at hin
        · exact hin
  intro u hu
  exact H (f u) u rfl hu

/-- The resolvedParents field produced by splitConversations. -/
theorem splitConversations_rp (records : List ClaudeRecord)
    (hne : (messageRecords records).isEmpty = false) :
    (splitConversations records).resolvedParents =
      (graphOf records).resolvedParents := by
  unfold splitConversations
  rw [hne]
  simp only [Bool.false_eq_true, if_false]
  split <;> rfl

/-- Membership count of a message record over the final conversation list:
with unique uuids and an acyclic resolved-ancestor relation, every message
record lands in exactly one conversation. -/
theorem splitConversations_exactly_one (records : List ClaudeRecord)
    (f : String → Nat)
    (hdec : ∀ k v,
      getA (splitConversations records).resolvedParents k = some (some v) →
      f v < f k)
    (hnodup : ((messageRecords records).map (fun r => r.uuid.getD "")).Nodup)
    (rec : ClaudeRecord) (hrec : rec ∈ messageRecords records) :
    (splitConversations records).conversations.countP
      (fun conv => decide (rec ∈ conv)) = 1 := by
  have hne : (messageRecords records).isEmpty = false := by
    cases hmr : messageRecords records with
    | nil => rw [hmr] at hrec; simp at hrec
    | cons a b => simp
  have hdec2 : ∀ k v, getA (graphOf records).resolvedParents k = some (some v) →
      f v < f k := by
    rw [← splitConversations_rp records hne]
    exact hdec
  have ht : optTruthy rec.uuid = true := messageRecords_uuid records rec hrec
  obtain ⟨u, huuid, hune⟩ : ∃ u, rec.uuid = some u ∧ u ≠ "" := by
    cases hu : rec.uuid with
    | none => simp [optTruthy, hu] at ht
    | some v =>
      simp [optTruthy, hu] at ht
      exact ⟨v, rfl, ht⟩
  obtain ⟨hby, hrp, hch, hrt⟩ := graphOf_facts records rec u hrec huuid hnodup
  have hinj : ∀ u2 r, getA (graphOf records).byUuid u2 = some r → r = rec →
      u2 = u := by
    intro u2 r hget hr
    subst hr
    have h2 := graphOf_byUuid_inv records u2 _ hget
    rw [huuid] at h2
    injection h2 with h2
    exact h2.symm
  have hu : u ∈ messageUuidsOf records :=
    (mem_messageUuidsOf records u).mpr ⟨rec, hrec, huuid, hune⟩
  unfold splitConversations
  rw [hne]
  simp only [Bool.false_eq_true, if_false]
  cases hloop : Split.rootsLoopAux (graphOf records).byUuid
      (graphOf records).children (Split.bfsFuelFor (graphOf records).children)
      (graphOf records).roots [] [] with
  | none =>
    have := Split.rootsLoopAux_total (graphOf records).byUuid
      (graphOf records).children (graphOf records).roots [] []
    rw [hloop] at this
    simp at this
  | some res =>
    obtain ⟨vF, convsRaw⟩ := res
    simp only []
    have hcount := Split.rootsLoopAux_count (graphOf records).byUuid
      (graphOf records).children (Split.bfsFuelFor (graphOf records).children)
      rec u hby hinj _ _ _ _ _ hloop
    have huF : u ∈ vF :=
      graphOf_complete records f hdec2 hnodup vF convsRaw hloop u hu
    have hperm := Split.sortAsc_perm (Split.convTime recTime) convsRaw
    rw [hperm.countP_eq]
    rw [hcount]
    simp [huF]

/-- byUuid values come from the iterated record list. -/
theorem graphFold_byUuid_mem (allByUuid : AssocMap ClaudeRecord)
    (messageUuids : List String) :
    ∀ (recs : List ClaudeRecord) (acc : GraphAcc) (u : String) (r : ClaudeRecord),
    getA ((recs.foldl (graphStep allByUuid messageUuids) acc)).byUuid u = some r →
    getA acc.byUuid u = some r ∨ r ∈ recs := by
  intro recs
  induction recs with
  | nil => intro acc u r h; exact Or.inl h
  | cons rec rest ih =>
    intro acc u r h
    rcases ih _ _ _ h with h2 | h2
    · rw [graphStep_byUuid] at h2
      by_cases ht : optTruthy rec.uuid = true
      · rw [if_pos ht] at h2
        by_cases hk : rec.uuid.getD "" = u
        · rw [hk, getA_setA_self] at h2
          injection h2 with h2
          subst h2
          exact Or.inr (by simp)
        · rw [getA_setA_ne _ _ _ _ hk] at h2
          exact Or.inl h2
      · rw [if_neg ht] at h2
        exact Or.inl h2
    · exact Or.inr (List.mem_cons_of_mem _ h2)

/-- Records stored in the byUuid lookup are message records. -/
theorem graphOf_byUuid_mem (records : List ClaudeRecord) (u : String)
    (r : ClaudeRecord) (h : getA (graphOf records).byUuid u = some r) :
    r ∈ messageRecords records := by
  unfold graphOf at h
  rcases graphFold_byUuid_mem (allByUuidOf records) (messageUuidsOf records)
    (messageRecords records) _ u r h with h2 | h2
  · simp [getA] at h2
  · exact h2

end Claude

namespace Split

/-- Conversations produced by the roots loop hold records of the lookup. -/
theorem rootsLoopAux_convs_mem {α : Type} (byId : AssocMap α)
    (children : AssocMap (List String)) (bfsFuel : Nat) :
    ∀ (roots visited : List String) (convs : List (List α))
      (vF : List String) (convsF : List (List α)),
    rootsLoopAux byId children bfsFuel roots visited convs = some (vF, convsF) →
    ∀ conv ∈ convsF, conv ∈ convs ∨ ∀ r ∈ conv, ∃ u, getA byId u = some r := by
  intro roots
  induction roots with
  | nil =>
    intro visited convs vF convsF h conv hconv
    simp [rootsLoopAux] at h
    rw [← h.2] at hconv
    exact Or.inl hconv
  | cons r rest ih =>
    intro visited convs vF convsF h conv hconv
    by_cases hv : r ∈ visited
    · simp only [rootsLoopAux, hv, if_true] at h
      exact ih _ _ _ _ h conv hconv
    · simp only [rootsLoopAux, hv, if_false] at h
      cases hbfs : bfsAux byId children bfsFuel [r] visited [] with
      | none => rw [hbfs] at h; simp at h
      | some res =>
        obtain ⟨v2, newConv⟩ := res
        rw [hbfs] at h
        simp at h
        rcases ih _ _ _ _ h conv hconv with h2 | h2
        · by_cases hce : newConv.isEmpty = true
          · rw [if_pos hce] at h2
            exact Or.inl h2
          · rw [if_neg hce] at h2
            rcases List.mem_append.mp h2 with h2 | h2
            · exact Or.inl h2
            · simp at h2
              subst h2
              right
              intro x hx
              rcases bfsAux_conv_mem byId children _ _ _ _ _ _ hbfs x hx with
                hc | ⟨u, _, _, hu⟩
              · simp at hc
              · exact ⟨u, hu⟩
        · exact Or.inr h2

end Split

namespace Claude

/-! ## Conversations hold message records of the input -/

theorem splitConversations_records (records : List ClaudeRecord) :
    ∀ conv ∈ (splitConversations records).conversations,
    ∀ r ∈ conv, r ∈ messageRecords records := by
  intro conv hconv r hr
  unfold splitConversations at hconv
  by_cases hne : (messageRecords records).isEmpty = true
  · rw [hne] at hconv
    simp at hconv
  · simp only [hne] at hconv
    simp only [Bool.false_eq_true, if_false] at hconv
    cases hloop : Split.rootsLoopAux (graphOf records).byUuid
        (graphOf records).children (Split.bfsFuelFor (graphOf records).children)
        (graphOf records).roots [] [] with
    | none =>
      have := Split.rootsLoopAux_total (graphOf records).byUuid
        (graphOf records).children (graphOf records).roots [] []
      rw [hloop] at this
      simp at this
    | some res =>
      obtain ⟨vF, convsRaw⟩ := res
      rw [hloop] at hconv
      simp only [] at hconv
      have hmem : conv ∈ convsRaw :=
        (Split.sortAsc_perm (Split.convTime recTime) convsRaw).mem_iff.mp hconv
      rcases Split.rootsLoopAux_convs_mem _ _ _ _ _ _ _ _ hloop conv hmem with
        hc | hc
      · simp at hc
      · obtain ⟨u, hu⟩ := hc r hr
        exact graphOf_byUuid_mem records u r hu

/-! ## Independence of the wall clock when timestamps are present -/

theorem buildMessageStep_now (resolvedParents skippedParents :
    AssocMap (Option String)) (allToolResults : AssocMap String)
    (now1 now2 : Int) (msgs : List Message) (rec : ClaudeRecord)
    (hts : rec.timestamp.isSome = true) :
    buildMessageStep resolvedParents skippedParents allToolResults now1 msgs rec =
      buildMessageStep resolvedParents skippedParents allToolResults now2 msgs rec := by
  unfold buildMessageStep
  cases hu : rec.timestamp with
  | none => simp [hu] at hts
  | some t => simp only [Option.getD_some]

theorem buildMessages_now (records : List ClaudeRecord)
    (resolvedParents skippedParents : AssocMap (Option String))
    (allToolResults : AssocMap String) (now1 now2 : Int)
    (hts : ∀ rec ∈ records, rec.timestamp.isSome = true) :
    buildMessages records resolvedParents skippedParents allToolResults now1 =
      buildMessages records resolvedParents skippedParents allToolResults now2 := by
  unfold buildMessages
  have H : ∀ (recs : List ClaudeRecord) (acc : List Message),
      (∀ rec ∈ recs, rec.timestamp.isSome = true) →
      recs.foldl (buildMessageStep resolvedParents skippedParents
        allToolResults now1) acc =
      recs.foldl (buildMessageStep resolvedParents skippedParents
        allToolResults now2) acc := by
    intro recs
    induction recs with
    | nil => intro acc _; rfl
    | cons rec rest ih =>
      intro acc h
      simp only [List.foldl_cons]
      rw [buildMessageStep_now _ _ _ now1 now2 _ _ (h rec (by simp))]
      exact ih _ (fun r hr => h r (List.mem_cons_of_mem _ hr))
  exact H records [] hts

/-- The message list of a transformed conversation. -/
theorem transformConversation_messages (records : List ClaudeRecord)
    (sourcePath : String) (warnings : List Warning)
    (resolvedParents : AssocMap (Option String)) (now : Int) :
    (transformConversation records sourcePath warnings resolvedParents
      now).messages =
    buildMessages records resolvedParents
      (collectSkippedParents records resolvedParents (collectToolResults records))
      (collectToolResults records) now := rfl

/-- The warnings of a transformed conversation are exactly those passed in. -/
theorem transformConversation_warnings (records : List ClaudeRecord)
    (sourcePath : String) (warnings : List Warning)
    (resolvedParents : AssocMap (Option String)) (now : Int) :
    (transformConversation records sourcePath warnings resolvedParents
      now).metadata.warnings = warnings := rfl

theorem transformConversation_now (records : List ClaudeRecord)
    (sourcePath : String) (warnings : List Warning)
    (resolvedParents : AssocMap (Option String)) (now1 now2 : Int)
    (hts : ∀ rec ∈ records, rec.timestamp.isSome = true)
    (hmsgs : (transformConversation records sourcePath warnings resolvedParents
      now1).messages ≠ []) :
    transformConversation records sourcePath warnings resolvedParents now1 =
      transformConversation records sourcePath warnings resolvedParents now2 := by
  rw [transformConversation_messages] at hmsgs
  simp only [transformConversation]
  rw [show buildMessages records resolvedParents
      (collectSkippedParents records resolvedParents (collectToolResults records))
      (collectToolResults records) now2 =
      buildMessages records resolvedParents
      (collectSkippedParents records resolvedParents (collectToolResults records))
      (collectToolResults records) now1 from
    (buildMessages_now _ _ _ _ now1 now2 hts).symm]
  cases hm : buildMessages records resolvedParents
      (collectSkippedParents records resolvedParents (collectToolResults records))
      (collectToolResults records) now1 with
  | nil => exact absurd hm hmsgs
  | cons m ms => simp [hm]

/-- mapIdx congruence on the elements of the list. -/
theorem mapIdx_congr {α β : Type} (f g : Nat → α → β) :
    ∀ (l : List α), (∀ i a, a ∈ l → f i a = g i a) →
    l.mapIdx f = l.mapIdx g := by
  intro l
  induction l generalizing f g with
  | nil => intro _; rfl
  | cons a rest ih =>
    intro h
    rw [List.mapIdx_cons, List.mapIdx_cons]
    rw [h 0 a (by simp)]
    rw [ih (fun i => f (i + 1)) (fun i => g (i + 1))
      (fun i x hx => h (i + 1) x (List.mem_cons_of_mem _ hx))]

/-- parse results do not depend on the wall clock when every record carries a
timestamp, at least one conversation exists, and every conversation keeps at
least one message. -/
theorem parse_now (records : List ClaudeRecord) (warnings : List Warning)
    (sourcePath : String) (now1 now2 : Int)
    (hts : ∀ rec ∈ records, rec.timestamp.isSome = true)
    (hconvs : (splitConversations records).conversations ≠ [])
    (hmsgs : ∀ conv ∈ (splitConversations records).conversations,
      (transformConversation conv sourcePath warnings
        (splitConversations records).resolvedParents now1).messages ≠ []) :
    parse records warnings sourcePath now1 =
      parse records warnings sourcePath now2 := by
  have htsc : ∀ conv ∈ (splitConversations records).conversations,
      ∀ rec ∈ conv, rec.timestamp.isSome = true := by
    intro conv hconv rec hrec
    exact hts rec
      (List.mem_of_mem_filter (splitConversations_records records conv hconv rec hrec))
  have hmsgs2 : ∀ conv ∈ (splitConversations records).conversations,
      ∀ w2 : List Warning,
      (transformConversation conv sourcePath w2
        (splitConversations records).resolvedParents now1).messages ≠ [] := by
    intro conv hconv w2
    rw [transformConversation_messages]
    have := hmsgs conv hconv
    rw [transformConversation_messages] at this
    exact this
  simp only [parse]
  have hne : (splitConversations records).conversations.isEmpty = false := by
    cases hc : (splitConversations records).conversations with
    | nil => exact absurd hc hconvs
    | cons a b => simp
  rw [hne]
  simp only [Bool.false_eq_true, if_false]
  by_cases hlen : (splitConversations records).conversations.length = 1
  · rw [if_pos hlen, if_pos hlen]
    have hhead : (splitConversations records).conversations.headD [] ∈
        (splitConversations records).conversations := by
      cases hc : (splitConversations records).conversations with
      | nil => exact absurd hc hconvs
      | cons a b => simp
    rw [transformConversation_now _ _ _ _ now1 now2 (htsc _ hhead)
      (hmsgs2 _ hhead warnings)]
  · rw [if_neg hlen, if_neg hlen]
    apply mapIdx_congr
    intro i conv hconv
    exact transformConversation_now _ _ _ _ now1 now2 (htsc conv hconv)
      (hmsgs2 conv hconv _)

end Claude

/-! ## Generic mapIdx membership -/

theorem mem_mapIdx_exists {α β : Type} :
    ∀ (l : List α) (g : Nat → α → β) (x : β), x ∈ l.mapIdx g →
    ∃ i a, a ∈ l ∧ x = g i a := by
  intro l
  induction l with
  | nil => intro g x h; simp at h
  | cons a rest ih =>
    intro g x h
    rw [List.mapIdx_cons] at h
    rcases List.mem_cons.mp h with h | h
    · exact ⟨0, a, by simp, h⟩
    · obtain ⟨i, b, hb, hx⟩ := ih (fun i => g (i + 1)) x h
      exact ⟨i + 1, b, List.mem_cons_of_mem _ hb, hx⟩

namespace Claude

/-! ## Ordering and shape of the parse output -/

/-- The conversation list of splitConversations is ascending in the timestamp
of each first record. -/
theorem splitConversations_sorted (records : List ClaudeRecord) :
    (splitConversations records).conversations.Pairwise
      (fun a b => Split.convTime recTime a ≤ Split.convTime recTime b) := by
  unfold splitConversations
  by_cases hne : (messageRecords records).isEmpty = true
  · simp [hne]
  · simp only [hne]
    simp only [Bool.false_eq_true, if_false]
    cases hloop : Split.rootsLoopAux (graphOf records).byUuid
        (graphOf records).children (Split.bfsFuelFor (graphOf records).children)
        (graphOf records).roots [] [] with
    | none => simp
    | some res =>
      obtain ⟨vF, convsRaw⟩ := res
      simp only []
      exact Split.sortAsc_sorted (Split.convTime recTime) convsRaw

/-- On inputs with at least one conversation, parse maps
transformConversation over the sorted conversation list in order. -/
theorem parse_eq_mapIdx (records : List ClaudeRecord) (warnings : List Warning)
    (sourcePath : String) (now : Int)
    (hconvs : (splitConversations records).conversations ≠ []) :
    parse records warnings sourcePath now =
      (splitConversations records).conversations.mapIdx (fun i conv =>
        transformConversation conv sourcePath (if i = 0 then warnings else [])
          (splitConversations records).resolvedParents now) := by
  simp only [parse]
  have hne : (splitConversations records).conversations.isEmpty = false := by
    cases hc : (splitConversations records).conversations with
    | nil => exact absurd hc hconvs
    | cons a b => simp
  rw [hne]
  simp only [Bool.false_eq_true, if_false]
  by_cases hlen : (splitConversations records).conversations.length = 1
  · rw [if_pos hlen]
    obtain ⟨c, hc⟩ := List.length_eq_one.mp hlen
    rw [hc]
    simp [List.mapIdx_cons]
  · rw [if_neg hlen]

/-- With more than one conversation, only the first transcript carries the
accumulated warnings. -/
theorem parse_warnings_first (records : List ClaudeRecord)
    (warnings : List Warning) (sourcePath : String) (now : Int)
    (hlen : 2 ≤ (splitConversations records).conversations.length) :
    ((parse records warnings sourcePath now).head?.map
      (fun t => t.metadata.warnings)) = some warnings ∧
    ∀ t ∈ (parse records warnings sourcePath now).tail,
      t.metadata.warnings = [] := by
  have hconvs : (splitConversations records).conversations ≠ [] := by
    intro hc
    rw [hc] at hlen
    simp at hlen
  rw [parse_eq_mapIdx records warnings sourcePath now hconvs]
  cases hc : (splitConversations records).conversations with
  | nil => exact absurd hc hconvs
  | cons c cs =>
    rw [List.mapIdx_cons]
    constructor
    · simp [transformConversation_warnings]
    · intro t ht
      simp only [List.tail_cons] at ht
      obtain ⟨i, conv, _, hx⟩ := mem_mapIdx_exists cs _ t ht
      rw [hx]
      simp [transformConversation_warnings]

end Claude

namespace Pi

/-! ## Ordering, shape and warning distribution of the pi parse output -/

/-- The warnings of a transformed pi conversation are those passed in. -/
theorem transformConversation_warnings_pi (entries : List SessionEntry)
    (sourcePath : String) (warnings : List Warning)
    (resolvedParents : AssocMap (Option String)) (cwd : Option String)
    (now : Int) :
    (transformConversation entries sourcePath warnings resolvedParents cwd
      now).metadata.warnings = warnings := rfl

/-- The pi conversation list is ascending in first-entry timestamps. -/
theorem splitConversations_sorted_pi (entries : List SessionEntry) :
    (splitConversations entries).conversations.Pairwise
      (fun a b => Split.convTime recTime a ≤ Split.convTime recTime b) := by
  unfold splitConversations
  by_cases hne : entries.isEmpty = true
  · simp [hne]
  · simp only [hne]
    simp only [Bool.false_eq_true, if_false]
    cases hloop : Split.rootsLoopAux (byIdOf entries) (graphOf entries).children
        (Split.bfsFuelFor (graphOf entries).children) (graphOf entries).roots
        [] [] with
    | none => simp
    | some res =>
      obtain ⟨vF, convsRaw⟩ := res
      simp only []
      exact Split.sortAsc_sorted (Split.convTime recTime) convsRaw

/-- On inputs with at least one conversation, pi parse maps
transformConversation over the sorted conversation list in order. -/
theorem parse_eq_mapIdx_pi (header : Option SessionHeader)
    (entries : List SessionEntry) (warnings : List Warning)
    (sourcePath : String) (now : Int)
    (hconvs : (splitConversations entries).conversations ≠ []) :
    parse header entries warnings sourcePath now =
      (splitConversations entries).conversations.mapIdx (fun i conv =>
        transformConversation conv sourcePath (if i = 0 then warnings else [])
          (splitConversations entries).resolvedParents
          (header.map SessionHeader.cwd) now) := by
  simp only [parse]
  have hne : (splitConversations entries).conversations.isEmpty = false := by
    cases hc : (splitConversations entries).conversations with
    | nil => exact absurd hc hconvs
    | cons a b => simp
  rw [hne]
  simp only [Bool.false_eq_true, if_false]
  by_cases hlen : (splitConversations entries).conversations.length = 1
  · rw [if_pos hlen]
    obtain ⟨c, hc⟩ := List.length_eq_one.mp hlen
    rw [hc]
    simp [List.mapIdx_cons]
  · rw [if_neg hlen]

/-- With more than one conversation, only the first pi transcript carries the
accumulated warnings. -/
theorem parse_warnings_first_pi (header : Option SessionHeader)
    (entries : List SessionEntry) (warnings : List Warning)
    (sourcePath : String) (now : Int)
    (hlen : 2 ≤ (splitConversations entries).conversations.length) :
    ((parse header entries warnings sourcePath now).head?.map
      (fun t => t.metadata.warnings)) = some warnings ∧
    ∀ t ∈ (parse header entries warnings sourcePath now).tail,
      t.metadata.warnings = [] := by
  have hconvs : (splitConversations entries).conversations ≠ [] := by
    intro hc
    rw [hc] at hlen
    simp at hlen
  rw [parse_eq_mapIdx_pi header entries warnings sourcePath now hconvs]
  cases hc : (splitConversations entries).conversations with
  | nil => exact absurd hc hconvs
  | cons c cs =>
    rw [List.mapIdx_cons]
    constructor
    · simp [transformConversation_warnings_pi]
    · intro t ht
      simp only [List.tail_cons] at ht
      obtain ⟨i, conv, _, hx⟩ := mem_mapIdx_exists cs _ t ht
      rw [hx]
      simp [transformConversation_warnings_pi]

end Pi

namespace Split

/-- The end of a redirect chain is not elided. -/
theorem SkipChain_end (skippedParents : AssocMap (Option String))
    (c r : String) (h : SkipChain skippedParents c r) :
    hasA skippedParents r = false := by
  induction h with
  | stop c hc => exact hc
  | step c next r hstep hne htail ih => exact ih

end Split

namespace Claude

/-- A resolved parent reported by resolveParent comes from a successful run
of the redirect loop. -/
theorem resolveParent_some (parentUuid : Option String)
    (skippedParents : AssocMap (Option String)) (r : String)
    (h : resolveParent parentUuid skippedParents = some r) :
    Split.skipChainAux skippedParents skippedParents.length parentUuid [] =
      some (some r) := by
  unfold resolveParent at h
  by_cases ht : optTruthy parentUuid = true
  · simp only [ht, not_true, Bool.not_true, if_neg, ite_false, if_false] at h
    cases haux : Split.skipChainAux skippedParents skippedParents.length
        parentUuid [] with
    | none => rw [haux] at h; simp at h
    | some res =>
      rw [haux] at h
      simp at h
      rw [h]
  · simp [ht] at h

end Claude

/-! # The claims

Each claim of the specification is settled by one theorem below, named
claim_Cn, together with a witness (for theorems with hypotheses) and a
counterexample (for corrected claims). -/

/-- A tracePath walk halts when some fuel is enough for it. -/
def TracePathHalts (target : String) (parents : AssocMap String) : Prop :=
  ∃ fuel, (Tree.tracePathAux parents fuel (some target) []).isSome = true

/-- A two-element parent cycle, as buildTree produces for a transcript whose
two messages name each other as parents. -/
def cycParents : AssocMap String := [("A", "B"), ("B", "A")]

/-- A user message with explicit tree position, used by the adversarial
transcripts below. -/
def mkUserMsg (ref : String) (t : Int) (p : Option String) : Message :=
  { body := .user ("m" ++ ref), sourceRef := ref, timestamp := t,
    parentMessageRef := p, rawJson := "" }

/-- A transcript whose two messages form a parent cycle A -> B -> A. -/
def cycTranscript : Transcript :=
  { source := { file := "cyc", adapter := "claude-code" },
    metadata := { warnings := [], messageCount := 2, startTime := 1,
                  endTime := 2, cwd := none },
    messages := [mkUserMsg "A" 1 (some "B"), mkUserMsg "B" 2 (some "A")] }

/-- On the two-element cycle the tracePath loop never halts, whatever the
fuel: every iteration stays on the cycle. -/
theorem tracePathAux_cyc_none :
    ∀ (fuel : Nat) (c : String) (path : List String), (c = "A" ∨ c = "B") →
    Tree.tracePathAux cycParents fuel (some c) path = none := by
  intro fuel
  induction fuel with
  | zero =>
    intro c path hc
    rcases hc with hc | hc <;> subst hc <;> simp [Tree.tracePathAux]
  | succ f ih =>
    intro c path hc
    rcases hc with hc | hc <;> subst hc
    · have : getA cycParents "A" = some "B" := by rfl
      simp only [Tree.tracePathAux, this]
      exact ih "B" _ (Or.inr rfl)
    · have : getA cycParents "B" = some "A" := by rfl
      simp only [Tree.tracePathAux, this]
      exact ih "A" _ (Or.inl rfl)

/-- Claim C1, counterexample: a transcript whose parent references form a
cycle makes the unguarded tracePath loop walk forever when an explicit head
on the cycle is chosen, so termination in at most N steps fails.  The
parents map built from the cyclic transcript is exactly the two-element
cycle, walkTranscriptTree diverges on it (modelled by the none result), and
no amount of fuel makes the loop halt. -/
theorem claim_C1_counterexample :
    (Tree.buildTree cycTranscript.messages).parents = cycParents ∧
    Tree.walkTranscriptTree cycTranscript { head := some "A" } = none ∧
    ¬ TracePathHalts "A" cycParents := by
  refine ⟨by decide, by decide, ?_⟩
  intro ⟨fuel, hfuel⟩
  rw [tracePathAux_cyc_none fuel "A" [] (Or.inl rfl)] at hfuel
  simp at hfuel

/-- Claim C1, amended: the resolveParent loops of both adapters are
cycle-guarded and halt within one iteration per skipped node on every input;
the tracePath walk halts within one iteration per parent entry plus one on
every acyclic parents map (one admitting a strictly decreasing measure).  A
transcript handed to walkTranscriptTree whose parent references form a cycle,
with an explicit head on the cycle, makes tracePath walk forever (see the
counterexample). -/
theorem claim_C1 (skippedParents : AssocMap (Option String))
    (start : Option String) (parents : AssocMap String) (f : String → Nat)
    (hdec : Tree.DecreasingParents parents f) (target : String) :
    (Split.skipChainAux skippedParents skippedParents.length start []).isSome =
      true ∧
    (Tree.tracePath target parents).isSome = true := by
  constructor
  · exact Split.skipChainAux_isSome skippedParents start
  · exact Tree.tracePath_total_of_decreasing parents f hdec target

/-- Witness for claim C1 at a concrete skipped map and a concrete acyclic
parents map. -/
theorem claim_C1_witness :
    (Split.skipChainAux [("C", some "B")] 1 (some "C") []).isSome = true ∧
    (Tree.tracePath "BB" [("BB", "A")]).isSome = true := by
  have h := claim_C1 [("C", some "B")] (some "C") [("BB", "A")]
    (fun s => s.length)
    (by
      intro k v hkv
      simp [getA] at hkv
      rcases hkv with ⟨hk, hv⟩
      subst hk
      subst hv
      decide)
    "BB"
  simpa using h

/-- A claude record pair forming the raw parent cycle A -> B -> A. -/
def cycRecA : Claude.ClaudeRecord :=
  { type := "user", uuid := some "A", parentUuid := some "B",
    timestamp := some 1, message := some ⟨"user", .str "hi A"⟩ }

/-- Second half of the cyclic record pair. -/
def cycRecB : Claude.ClaudeRecord :=
  { type := "user", uuid := some "B", parentUuid := some "A",
    timestamp := some 2, message := some ⟨"user", .str "hi B"⟩ }

/-- Claim C2, counterexample: on the cyclic chain A -> B -> A the claude
splitter resolves each record to the other as ancestor, so neither is a
root; both message records are dropped from every conversation (zero
conversations), not kept as two independent single-node roots. -/
theorem claim_C2_counterexample :
    Claude.messageRecords [cycRecA, cycRecB] = [cycRecA, cycRecB] ∧
    (Claude.splitConversations [cycRecA, cycRecB]).conversations = [] ∧
    (Claude.splitConversations [cycRecA, cycRecB]).conversations.countP
      (fun conv => decide (cycRecA ∈ conv)) = 0 := by decide

/-- Claim C2, amended: when the resolved-ancestor relation computed by
splitConversations is acyclic (admits a strictly decreasing measure) and the
message uuids are distinct, every message record of the input belongs to
exactly one produced conversation.  Records on a resolved-parent cycle
(cyclic chain A -> B -> A) belong to none, though the split still
terminates; see the counterexample. -/
theorem claim_C2 (records : List Claude.ClaudeRecord) (f : String → Nat)
    (hdec : ∀ k v,
      getA (Claude.splitConversations records).resolvedParents k =
        some (some v) → f v < f k)
    (hnodup : ((Claude.messageRecords records).map
      (fun r => r.uuid.getD "")).Nodup)
    (rec : Claude.ClaudeRecord) (hrec : rec ∈ Claude.messageRecords records) :
    (Claude.splitConversations records).conversations.countP
      (fun conv => decide (rec ∈ conv)) = 1 :=
  Claude.splitConversations_exactly_one records f hdec hnodup rec hrec

/-- A two-record acyclic conversation used as witness input. -/
def wRecA : Claude.ClaudeRecord :=
  { type := "user", uuid := some "A", timestamp := some 1,
    message := some ⟨"user", .str "question"⟩ }

/-- Child record of the witness conversation. -/
def wRecB : Claude.ClaudeRecord :=
  { type := "assistant", uuid := some "B", parentUuid := some "A",
    timestamp := some 2,
    message := some ⟨"assistant",
      .blocks [{ type := "text", text := some "answer" }]⟩ }

/-- Witness for claim C2 on a concrete acyclic two-record input. -/
theorem claim_C2_witness :
    (Claude.splitConversations [wRecA, wRecB]).conversations.countP
      (fun conv => decide (wRecA ∈ conv)) = 1 := by
  apply claim_C2 [wRecA, wRecB] (fun s => if s = "A" then 0 else 1)
  · intro k v h
    have hrp : (Claude.splitConversations [wRecA, wRecB]).resolvedParents =
        [("A", none), ("B", some "A")] := by decide
    rw [hrp] at h
    by_cases hk1 : ("A" : String) = k
    · rw [← hk1] at h
      simp [getA] at h
    · by_cases hk2 : ("B" : String) = k
      · rw [← hk2] at h ⊢
        simp [getA] at h
        subst h
        decide
      · simp [getA, hk1, hk2] at h
  · decide
  · rw [show Claude.messageRecords [wRecA, wRecB] = [wRecA, wRecB] by decide]
    simp

/-- The empty transcript, on which walkTranscriptTree reports the empty
event before ever looking at the head option. -/
def emptyTranscript : Transcript :=
  { source := { file := "empty", adapter := "claude-code" },
    metadata := { warnings := [], messageCount := 0, startTime := 0,
                  endTime := 0, cwd := none },
    messages := [] }

/-- Claim C3, counterexample: on the empty transcript with the absent
explicit head x, walkTranscriptTree yields the empty event rather than the
head-not-found event the claim promises for every absent id. -/
theorem claim_C3_counterexample :
    hasA (Tree.buildTree emptyTranscript.messages).bySourceRef "x" = false ∧
    Tree.walkTranscriptTree emptyTranscript { head := some "x" } =
      some [Tree.TreeEvent.empty] ∧
    Tree.walkTranscriptTree emptyTranscript { head := some "x" } ≠
      some [Tree.TreeEvent.headNotFound "x"] := by decide

/-- Claim C3, amended: for a non-empty transcript and a non-blank explicit
head, an absent id yields exactly the head-not-found event (and the error
line in the markdown renderer), and a present id yields the walk of a path
whose last element is the head.  The empty transcript yields the empty
event even when an absent head is requested; see the counterexample. -/
theorem claim_C3 (t : Transcript) (h : String)
    (hne : t.messages.isEmpty = false) (hh : h ≠ "") :
    (hasA (Tree.buildTree t.messages).bySourceRef h = false →
      Tree.walkTranscriptTree t { head := some h } =
        some [Tree.TreeEvent.headNotFound h] ∧
      Render.renderTranscript t { head := some h } =
        some (String.intercalate "\n" (Render.headerLines t none ++
          ["", "**Error**: Message ID `" ++ h ++ "` not found"]))) ∧
    (hasA (Tree.buildTree t.messages).bySourceRef h = true →
      ∀ path, Tree.tracePath h (Tree.buildTree t.messages).parents = some path →
        (∃ pre, path = pre ++ [h]) ∧
        Tree.walkTranscriptTree t { head := some h } =
          some (Tree.walkPathEvents (Tree.buildTree t.messages).bySourceRef
            (Tree.buildTree t.messages).children path false path)) := by
  constructor
  · intro habs
    exact ⟨Tree.walkTranscriptTree_head_not_found t h hne hh habs,
      Render.renderTranscript_head_missing t h hne hh habs⟩
  · intro hpres path hpath
    constructor
    · have hpath2 : Tree.tracePathAux (Tree.buildTree t.messages).parents
          ((Tree.buildTree t.messages).parents.length + 1) (some h) [] =
          some path := hpath
      exact Tree.tracePathAux_last _ _ h path hh hpath2
    · exact Tree.walkTranscriptTree_head_found t h path hne hh hpres hpath

/-- A two-message chain transcript used by the explicit-head witness. -/
def chainTranscript : Transcript :=
  { source := { file := "chain", adapter := "claude-code" },
    metadata := { warnings := [], messageCount := 2, startTime := 1,
                  endTime := 2, cwd := none },
    messages := [mkUserMsg "A" 1 none, mkUserMsg "B" 2 (some "A")] }

/-- Witness for claim C3: on a concrete two-message chain, absent head X
yields head-not-found, and present head B yields a path ending at B. -/
theorem claim_C3_witness :
    Tree.walkTranscriptTree chainTranscript { head := some "X" } =
      some [Tree.TreeEvent.headNotFound "X"] ∧
    (∃ pre, ["A", "B"] = pre ++ ["B"]) := by
  constructor
  · exact ((claim_C3 chainTranscript "X" (by decide) (by decide)).1 (by decide)).1
  · exact ((claim_C3 chainTranscript "B" (by decide) (by decide)).2 (by decide)
      ["A", "B"] (by decide)).1

/-- A transcript whose three render nodes are leaves with strictly
increasing but non-positive timestamps. -/
def negTranscript : Transcript :=
  { source := { file := "neg", adapter := "claude-code" },
    metadata := { warnings := [], messageCount := 3, startTime := -3,
                  endTime := -1, cwd := none },
    messages := [mkUserMsg "L1" (-3) none, mkUserMsg "L2" (-2) none,
                 mkUserMsg "L3" (-1) none] }

/-- Claim C4, counterexample: the three render nodes are leaves with
timestamps -3 < -2 < -1, but findLatestLeaf selects nothing (the scan starts
at latest time 0 and only moves on a strictly larger time), so the default
walk falls back to the flat message list instead of selecting the T3
leaf. -/
theorem claim_C4_counterexample :
    Tree.isLeaf (Tree.buildTree negTranscript.messages).children "L1" = true ∧
    Tree.isLeaf (Tree.buildTree negTranscript.messages).children "L2" = true ∧
    Tree.isLeaf (Tree.buildTree negTranscript.messages).children "L3" = true ∧
    Tree.firstTime (Tree.buildTree negTranscript.messages).bySourceRef "L3" =
      some (-1) ∧
    Tree.findLatestLeaf (Tree.buildTree negTranscript.messages).bySourceRef
      (Tree.buildTree negTranscript.messages).children = none ∧
    Tree.walkTranscriptTree negTranscript {} =
      some [Tree.TreeEvent.messages negTranscript.messages] := by decide

/-- Claim C4, amended: findLatestLeaf selects the leaf whose first-message
timestamp is positive, strictly above every earlier leaf time and at least
every later leaf time (ties favour the first-encountered leaf); leaves
whose timestamps are all non-positive are never selected (see the
counterexample). -/
theorem claim_C4 (bySourceRef : AssocMap (List Message))
    (children : AssocMap (List String)) (L : String) (T : Int)
    (ks1 ks2 : List String)
    (hkeys : keysA bySourceRef = ks1 ++ L :: ks2)
    (hleaf : Tree.isLeaf children L = true)
    (htime : Tree.firstTime bySourceRef L = some T)
    (hpos : 0 < T)
    (hbefore : ∀ ref ∈ ks1, Tree.isLeaf children ref = true →
      ∀ t, Tree.firstTime bySourceRef ref = some t → t < T)
    (hafter : ∀ ref ∈ ks2, Tree.isLeaf children ref = true →
      ∀ t, Tree.firstTime bySourceRef ref = some t → t ≤ T) :
    Tree.findLatestLeaf bySourceRef children = some L :=
  Tree.findLatestLeaf_select bySourceRef children L T ks1 ks2 hkeys hleaf htime
    hpos hbefore hafter

/-- A transcript whose three leaves carry timestamps 1 < 2 < 3. -/
def posTranscript : Transcript :=
  { source := { file := "pos", adapter := "claude-code" },
    metadata := { warnings := [], messageCount := 3, startTime := 1,
                  endTime := 3, cwd := none },
    messages := [mkUserMsg "L1" 1 none, mkUserMsg "L2" 2 none,
                 mkUserMsg "L3" 3 none] }

/-- Witness for claim C4: over leaves with timestamps 1 < 2 < 3 the latest
leaf is selected. -/
theorem claim_C4_witness :
    Tree.findLatestLeaf (Tree.buildTree posTranscript.messages).bySourceRef
      (Tree.buildTree posTranscript.messages).children = some "L3" := by
  refine claim_C4 _ _ "L3" 3 ["L1", "L2"] [] (by decide) (by decide) (by decide)
    (by decide) ?_ ?_
  · intro ref href hleaf t ht
    fin_cases href
    · have h1 : Tree.firstTime
          (Tree.buildTree posTranscript.messages).bySourceRef "L1" = some 1 := by
        decide
      rw [h1] at ht
      injection ht with h
      omega
    · have h2 : Tree.firstTime
          (Tree.buildTree posTranscript.messages).bySourceRef "L2" = some 2 := by
        decide
      rw [h2] at ht
      injection ht with h
      omega
  · intro ref href
    simp at href

/-- Claim C5: whenever the redirection walk of resolveParent reports an
effective parent, that parent is reached from the starting reference by a
chain of redirect targets that passes only through skipped (elided) nodes
and ends at the first non-skipped reference: the nearest non-elided
ancestor.  Eliding a node therefore never disconnects its descendants from
that ancestor. -/
theorem claim_C5 (c : String) (skippedParents : AssocMap (Option String))
    (r : String) (hc : c ≠ "") (hr : r ≠ "")
    (h : Claude.resolveParent (some c) skippedParents = some r) :
    Split.SkipChain skippedParents c r ∧ hasA skippedParents r = false := by
  have haux := Claude.resolveParent_some (some c) skippedParents r h
  have hchain := Split.skipChainAux_chain skippedParents skippedParents.length
    c [] r haux hc hr
  exact ⟨hchain, Split.SkipChain_end skippedParents c r hchain⟩

/-- Root record A of the elision example. -/
def rA5 : Claude.ClaudeRecord :=
  { type := "user", uuid := some "A", timestamp := some 10,
    message := some ⟨"user", .str "question"⟩ }

/-- Record B, a child of A with authored text. -/
def rB5 : Claude.ClaudeRecord :=
  { type := "assistant", uuid := some "B", parentUuid := some "A",
    timestamp := some 20,
    message := some ⟨"assistant",
      .blocks [{ type := "text", text := some "answer" }]⟩ }

/-- Record C, a child of B that carries only a machine-relayed tool result,
so it is elided. -/
def rC5 : Claude.ClaudeRecord :=
  { type := "user", uuid := some "C", parentUuid := some "B",
    timestamp := some 30,
    message := some ⟨"user", .blocks [
      { type := "tool_result", tool_use_id := some "t1",
        content := some "result" }]⟩ }

/-- Record D, a child of the elided C. -/
def rD5 : Claude.ClaudeRecord :=
  { type := "user", uuid := some "D", parentUuid := some "C",
    timestamp := some 40,
    message := some ⟨"user", .str "followup"⟩ }

/-- The elision example A, B, C (elided), D. -/
def c5records : List Claude.ClaudeRecord := [rA5, rB5, rC5, rD5]

/-- The skippedParents map transformConversation computes for the elision
example. -/
def c5skipped : AssocMap (Option String) :=
  Claude.collectSkippedParents c5records
    (Claude.splitConversations c5records).resolvedParents
    (Claude.collectToolResults c5records)

/-- Witness for claim C5 on the example A(parent none), B(parent A),
C(parent B, elided), D(parent C): the redirect chain from C ends at the
non-elided B, and the full pipeline resolves D's effective parent to B. -/
theorem claim_C5_witness :
    (Split.SkipChain c5skipped "C" "B" ∧ hasA c5skipped "B" = false) ∧
    ((Claude.parse c5records [] "f" 0).map (fun t =>
      t.messages.map (fun m => (m.sourceRef, m.parentMessageRef)))) =
      [[("A", none), ("B", some "A"), ("D", some "B")]] := by
  constructor
  · exact claim_C5 "C" c5skipped "B" (by decide) (by decide) (by decide)
  · decide

/-- Claim C6: in default mode, at a canonical-path node with more than one
child, any child off the path that has a first message is listed, with the
first line of that message, in a branch-note event emitted by the walk. -/
theorem claim_C6 (t : Transcript) (tgt : String) (path : List String)
    (hne : t.messages.isEmpty = false)
    (htgt : Tree.findLatestLeaf (Tree.buildTree t.messages).bySourceRef
      (Tree.buildTree t.messages).children = some tgt)
    (htne : tgt ≠ "")
    (hpath : Tree.tracePath tgt (Tree.buildTree t.messages).parents = some path)
    (p x : String) (hp : p ∈ path) (pmsgs : List Message)
    (hpm : getA (Tree.buildTree t.messages).bySourceRef p = some pmsgs)
    (childSet : List String)
    (hcs : getA (Tree.buildTree t.messages).children p = some childSet)
    (hlen : childSet.length > 1) (hx : x ∈ childSet) (hxo : x ∉ path)
    (m : Message) (ms : List Message)
    (hxm : getA (Tree.buildTree t.messages).bySourceRef x = some (m :: ms)) :
    ∃ events branches,
      Tree.walkTranscriptTree t {} = some events ∧
      Tree.TreeEvent.branchNote branches ∈ events ∧
      (⟨x, Tree.getFirstLine m⟩ : Tree.BranchInfo) ∈ branches := by
  obtain ⟨branches, hbe, hbmem⟩ := Tree.branchEventsAt_spec
    (Tree.buildTree t.messages).bySourceRef (Tree.buildTree t.messages).children
    path p x childSet hcs hlen hx hxo m ms hxm
  refine ⟨_, branches,
    Tree.walkTranscriptTree_default_target t tgt path hne htgt htne hpath,
    ?_, hbmem⟩
  apply Tree.branchEventsAt_mem_walkPathEvents _ _ path p pmsgs hpm path hp
  rw [hbe]
  simp

/-- A transcript with siblings X and Y below B, Y being the latest leaf. -/
def branchTranscript : Transcript :=
  { source := { file := "branch", adapter := "claude-code" },
    metadata := { warnings := [], messageCount := 3, startTime := 1,
                  endTime := 3, cwd := none },
    messages := [mkUserMsg "B" 1 none, mkUserMsg "X" 2 (some "B"),
                 mkUserMsg "Y" 3 (some "B")] }

/-- Witness for claim C6: with siblings X and Y below B and Y on the chosen
path, a branch note referencing X is emitted at B. -/
theorem claim_C6_witness :
    ∃ events branches,
      Tree.walkTranscriptTree branchTranscript {} = some events ∧
      Tree.TreeEvent.branchNote branches ∈ events ∧
      (⟨"X", Tree.getFirstLine (mkUserMsg "X" 2 (some "B"))⟩ : Tree.BranchInfo)
        ∈ branches :=
  claim_C6 branchTranscript "Y" ["B", "Y"] (by decide) (by decide) (by decide)
    (by decide) "B" "X" (by simp) [mkUserMsg "B" 1 none] (by decide)
    ["X", "Y"] (by decide) (by decide) (by simp) (by simp)
    (mkUserMsg "X" 2 (some "B")) [] (by decide)

/-- A message record that carries no timestamp. -/
def noTsRec : Claude.ClaudeRecord :=
  { type := "user", uuid := some "N", timestamp := none,
    message := some ⟨"user", .str "hello"⟩ }

/-- A timestamped root record that is kept. -/
def cl7a : Claude.ClaudeRecord :=
  { type := "user", uuid := some "M", timestamp := some 5,
    message := some ⟨"user", .str "hi"⟩ }

/-- A timestamped root record that is elided (tool-result-only), so its
conversation keeps no message. -/
def cl7b : Claude.ClaudeRecord :=
  { type := "user", uuid := some "T", timestamp := some 7,
    message := some ⟨"user", .blocks [
      { type := "tool_result", tool_use_id := some "t9",
        content := some "out" }]⟩ }

/-- Claim C7, counterexample, two clock leaks: a record without a timestamp
makes the parsed message carry the wall clock read at parse time; and even
with every record timestamped, a conversation whose records are all elided
takes the wall clock as its transcript start and end time.  In both cases
two runs at different times produce different transcripts. -/
theorem claim_C7_counterexample :
    ((Claude.parse [noTsRec] [] "f" 0).map
      (fun t => t.messages.map Message.timestamp) = [[0]] ∧
     (Claude.parse [noTsRec] [] "f" 1).map
      (fun t => t.messages.map Message.timestamp) = [[1]] ∧
     Claude.parse [noTsRec] [] "f" 0 ≠ Claude.parse [noTsRec] [] "f" 1) ∧
    ((∀ rec ∈ [cl7a, cl7b], rec.timestamp.isSome = true) ∧
     (Claude.parse [cl7a, cl7b] [] "f" 0).map
      (fun t => (t.messages.length, t.metadata.startTime)) = [(1, 5), (0, 0)] ∧
     (Claude.parse [cl7a, cl7b] [] "f" 1).map
      (fun t => (t.messages.length, t.metadata.startTime)) = [(1, 5), (0, 1)] ∧
     Claude.parse [cl7a, cl7b] [] "f" 0 ≠ Claude.parse [cl7a, cl7b] [] "f" 1) := by
  decide

/-- Claim C7, amended: when every record carries a timestamp, the input
yields at least one conversation and every one of those conversations keeps
at least one message after elision, the parse result and with it the whole
event sequence of the pipeline is independent of the wall clock.  Both
side conditions are necessary: a record without a timestamp falls back to
the current time for its message timestamp, and a conversation left with no
messages falls back to the current time for its metadata start and end
times (see the counterexample for both).  Everything else in the pipeline
is a pure function of the input. -/
theorem claim_C7 (records : List Claude.ClaudeRecord) (warnings : List Warning)
    (sourcePath : String) (now1 now2 : Int) (opts : Tree.WalkOptions)
    (hts : ∀ rec ∈ records, rec.timestamp.isSome = true)
    (hconvs : (Claude.splitConversations records).conversations ≠ [])
    (hmsgs : ∀ conv ∈ (Claude.splitConversations records).conversations,
      (Claude.transformConversation conv sourcePath warnings
        (Claude.splitConversations records).resolvedParents now1).messages ≠ []) :
    Claude.parse records warnings sourcePath now1 =
      Claude.parse records warnings sourcePath now2 ∧
    (Claude.parse records warnings sourcePath now1).map
      (fun t => Tree.walkTranscriptTree t opts) =
    (Claude.parse records warnings sourcePath now2).map
      (fun t => Tree.walkTranscriptTree t opts) := by
  have h := Claude.parse_now records warnings sourcePath now1 now2 hts hconvs hmsgs
  exact ⟨h, by rw [h]⟩

/-- A timestamped message record for the determinism witness. -/
def wRec7 : Claude.ClaudeRecord :=
  { type := "user", uuid := some "W", timestamp := some 5,
    message := some ⟨"user", .str "hello"⟩ }

/-- Witness for claim C7 at a concrete timestamped input and two different
wall-clock readings. -/
theorem claim_C7_witness :
    Claude.parse [wRec7] [] "f" 0 = Claude.parse [wRec7] [] "f" 1 ∧
    (Claude.parse [wRec7] [] "f" 0).map
      (fun t => Tree.walkTranscriptTree t {}) =
    (Claude.parse [wRec7] [] "f" 1).map
      (fun t => Tree.walkTranscriptTree t {}) :=
  claim_C7 [wRec7] [] "f" 0 1 {} (by decide) (by decide) (by decide)

/-- A root record with a late timestamp whose child has the earliest
timestamp of the whole file. -/
def s1C8 : Claude.ClaudeRecord :=
  { type := "user", uuid := some "R1", timestamp := some 10,
    message := some ⟨"user", .str "a"⟩ }

/-- The early child of R1. -/
def s2C8 : Claude.ClaudeRecord :=
  { type := "user", uuid := some "R2", parentUuid := some "R1",
    timestamp := some 1, message := some ⟨"user", .str "b"⟩ }

/-- A second root between the two timestamps of the first conversation. -/
def s3C8 : Claude.ClaudeRecord :=
  { type := "user", uuid := some "R3", timestamp := some 5,
    message := some ⟨"user", .str "c"⟩ }

/-- Claim C8, counterexample: the conversation rooted at R1 contains the
earliest node of the file (timestamp 1), yet it is returned second because
the sort reads the timestamp of each conversation's first record (its BFS
root), not of its earliest node: the per-transcript earliest timestamps
come out as 5 then 1, which is not ascending. -/
theorem claim_C8_counterexample :
    ((Claude.parse [s1C8, s2C8, s3C8] [] "f" 0).map
      (fun t => t.messages.map Message.timestamp)) = [[5], [10, 1]] ∧
    ¬ ((Claude.parse [s1C8, s2C8, s3C8] [] "f" 0).map
      (fun t => (t.messages.map Message.timestamp).foldr min 1000)).Pairwise
        (fun a b => a ≤ b) := by decide

/-- Claim C8, amended: both adapters return the conversations of one source
file sorted ascending by the timestamp of each conversation's first record
(the BFS root), and parse emits the transcripts in exactly that order; the
order does not follow the earliest node of a conversation when a child
predates its root (see the counterexample). -/
theorem claim_C8 (records : List Claude.ClaudeRecord)
    (entries : List Pi.SessionEntry) (warnings : List Warning)
    (sourcePath : String) (now : Int)
    (hconvs : (Claude.splitConversations records).conversations ≠ []) :
    (Claude.splitConversations records).conversations.Pairwise
      (fun a b =>
        Split.convTime Claude.recTime a ≤ Split.convTime Claude.recTime b) ∧
    (Pi.splitConversations entries).conversations.Pairwise
      (fun a b => Split.convTime Pi.recTime a ≤ Split.convTime Pi.recTime b) ∧
    Claude.parse records warnings sourcePath now =
      (Claude.splitConversations records).conversations.mapIdx (fun i conv =>
        Claude.transformConversation conv sourcePath
          (if i = 0 then warnings else [])
          (Claude.splitConversations records).resolvedParents now) :=
  ⟨Claude.splitConversations_sorted records,
   Pi.splitConversations_sorted_pi entries,
   Claude.parse_eq_mapIdx records warnings sourcePath now hconvs⟩

/-- Witness for claim C8 at the three-record input of the counterexample
and an empty pi session. -/
theorem claim_C8_witness :
    (Claude.splitConversations [s1C8, s2C8, s3C8]).conversations.Pairwise
      (fun a b =>
        Split.convTime Claude.recTime a ≤ Split.convTime Claude.recTime b) ∧
    (Pi.splitConversations []).conversations.Pairwise
      (fun a b => Split.convTime Pi.recTime a ≤ Split.convTime Pi.recTime b) ∧
    Claude.parse [s1C8, s2C8, s3C8] [] "f" 0 =
      (Claude.splitConversations [s1C8, s2C8, s3C8]).conversations.mapIdx
        (fun i conv => Claude.transformConversation conv "f"
          (if i = 0 then [] else [])
          (Claude.splitConversations [s1C8, s2C8, s3C8]).resolvedParents 0) :=
  claim_C8 [s1C8, s2C8, s3C8] [] [] "f" 0 (by decide)

/-- Claim C9: on a non-empty transcript none of whose render nodes is a
leaf (possible only with degenerate parent references), the default walk
emits exactly one messages event carrying all messages in input order, and
the markdown renderer renders the flat message list, instead of failing. -/
theorem claim_C9 (t : Transcript)
    (hne : t.messages.isEmpty = false)
    (hnoleaf : ∀ ref ∈ keysA (Tree.buildTree t.messages).bySourceRef,
      Tree.isLeaf (Tree.buildTree t.messages).children ref = false) :
    Tree.walkTranscriptTree t {} = some [Tree.TreeEvent.messages t.messages] ∧
    Render.renderTranscript t {} = some (String.intercalate "\n"
      (Render.headerLines t none ++ Render.fallbackLines t.messages)) := by
  have hnone : Tree.findLatestLeaf (Tree.buildTree t.messages).bySourceRef
      (Tree.buildTree t.messages).children = none := by
    apply Tree.findLatestLeaf_none
    intro ref href hleaf
    rw [hnoleaf ref href] at hleaf
    exact absurd hleaf (by decide)
  exact ⟨Tree.walkTranscriptTree_default_fallback t hne hnone,
    Render.renderTranscript_fallback t hne hnone⟩

/-- A two-message cyclic transcript in which every render node has a
child. -/
def cyc9Transcript : Transcript :=
  { source := { file := "cyc9", adapter := "claude-code" },
    metadata := { warnings := [], messageCount := 2, startTime := 1,
                  endTime := 2, cwd := none },
    messages := [mkUserMsg "P" 1 (some "Q"), mkUserMsg "Q" 2 (some "P")] }

/-- Witness for claim C9 on the cyclic two-message transcript. -/
theorem claim_C9_witness :
    Tree.walkTranscriptTree cyc9Transcript {} =
      some [Tree.TreeEvent.messages cyc9Transcript.messages] ∧
    Render.renderTranscript cyc9Transcript {} = some (String.intercalate "\n"
      (Render.headerLines cyc9Transcript none ++
        Render.fallbackLines cyc9Transcript.messages)) :=
  claim_C9 cyc9Transcript (by decide) (by decide)

/-- Claim C10: for both adapters, when one source file splits into more
than one conversation, the first returned transcript carries all the
accumulated parse warnings and every later transcript carries none,
whatever lines produced the warnings. -/
theorem claim_C10 (records : List Claude.ClaudeRecord)
    (header : Option Pi.SessionHeader) (entries : List Pi.SessionEntry)
    (cw pw : List Warning) (csp psp : String) (cnow pnow : Int)
    (hclen : 2 ≤ (Claude.splitConversations records).conversations.length)
    (hplen : 2 ≤ (Pi.splitConversations entries).conversations.length) :
    ((Claude.parse records cw csp cnow).head?.map
      (fun t => t.metadata.warnings) = some cw ∧
     ∀ t ∈ (Claude.parse records cw csp cnow).tail,
       t.metadata.warnings = []) ∧
    ((Pi.parse header entries pw psp pnow).head?.map
      (fun t => t.metadata.warnings) = some pw ∧
     ∀ t ∈ (Pi.parse header entries pw psp pnow).tail,
       t.metadata.warnings = []) :=
  ⟨Claude.parse_warnings_first records cw csp cnow hclen,
   Pi.parse_warnings_first_pi header entries pw psp pnow hplen⟩

/-- First of two independent claude roots. -/
def w10a : Claude.ClaudeRecord :=
  { type := "user", uuid := some "K1", timestamp := some 1,
    message := some ⟨"user", .str "one"⟩ }

/-- Second of two independent claude roots. -/
def w10b : Claude.ClaudeRecord :=
  { type := "user", uuid := some "K2", timestamp := some 2,
    message := some ⟨"user", .str "two"⟩ }

/-- First of two independent pi roots. -/
def e10a : Pi.SessionEntry := .message "E1" none 1 (.user (.str "hi") 1)

/-- Second of two independent pi roots. -/
def e10b : Pi.SessionEntry := .message "E2" none 2 (.user (.str "yo") 2)

/-- A parse warning attached to the inputs of the warnings witness. -/
def w10warn : Warning := { type := "parse_error", detail := "bad line" }

/-- Witness for claim C10 on two-conversation inputs of both adapters. -/
theorem claim_C10_witness :
    ((Claude.parse [w10a, w10b] [w10warn] "f" 0).head?.map
      (fun t => t.metadata.warnings) = some [w10warn] ∧
     ∀ t ∈ (Claude.parse [w10a, w10b] [w10warn] "f" 0).tail,
       t.metadata.warnings = []) ∧
    ((Pi.parse none [e10a, e10b] [w10warn] "g" 0).head?.map
      (fun t => t.metadata.warnings) = some [w10warn] ∧
     ∀ t ∈ (Pi.parse none [e10a, e10b] [w10warn] "g" 0).tail,
       t.metadata.warnings = []) :=
  claim_C10 [w10a, w10b] none [e10a, e10b] [w10warn] [w10warn] "f" "g" 0 0
    (by decide) (by decide)
